import Mathlib

/-! A verification development for `src/ppm_manip.c` (ppm-manip).

The C program is embedded shallowly:

* bytes, characters and machine integers are natural numbers; every place where
  the C code narrows or wraps a value carries an explicit `%`;
* an input stream (a `FILE*` opened for reading) is the list of the bytes that
  have not been read yet; what is written to an output stream is a list of bytes;
* `unsigned int` and `uint32_t` are 32 bits wide, `size_t` and `unsigned long`
  are 64 bits wide; the conversions of `fscanf` convert a number as the GNU C
  library does, through `strtoul`;
* `assert` is active (the source never defines `NDEBUG`): a failing assertion
  ends the run, which the result types record as `abort` / `aborted`;
* the decoder does not check the index of a store: a store at an index the
  pixel buffer does not have does not end the call, the loop goes on and the
  store is recorded in the result (`LoadResult.overflow`); a load by `GetPixel`
  outside the buffer is recorded as the end of the encoder's run;
* `malloc` returns a buffer (of indeterminate content, the parameter `heap`),
  and writes to an open file succeed.
-/

namespace PpmManip

/-! ## Data model -/

/-- The C struct `RgbColor`: three `uint8_t` channels. -/
structure RgbColor where
  R : Nat
  G : Nat
  B : Nat
deriving DecidableEq, Repr

/-- Typing of `RgbColor`: every channel is an 8-bit value. -/
def RgbColor.valid (c : RgbColor) : Prop := c.R < 256 ∧ c.G < 256 ∧ c.B < 256

instance (c : RgbColor) : Decidable c.valid := by
  unfold RgbColor.valid; infer_instance

/-- The C enum `PPM_MODE`. -/
inductive PPM_MODE where
  | PPM_MODE_P1
  | PPM_MODE_P3
  | PPM_MODE_P6
deriving DecidableEq, Repr

/-- The C struct `PpmImage`; `Pixels` is the content of the buffer the pointer
designates, one entry per `RgbColor` cell. -/
structure PpmImage where
  Width : Nat
  Heigth : Nat
  Pixels : List RgbColor
  Mode : PPM_MODE
deriving DecidableEq, Repr

/-- The bytes of an ASCII text (used to write inputs and outputs legibly). -/
def ascii (s : String) : List Nat := s.toList.map Char.toNat

/-! ## Pixel transforms -/

/-- The transform `DefaultAct`: the identity. -/
def DefaultAct (color : RgbColor) : RgbColor := color

/-- The transform `ToGrayScaleP3`: the channels are promoted to `int`, summed, divided by
`3U`, and the quotient is narrowed to `uint8_t`. -/
def ToGrayScaleP3 (PixelColor : RgbColor) : RgbColor :=
  let gray := ((PixelColor.R + PixelColor.G + PixelColor.B) / 3) % 256
  { R := gray, G := gray, B := gray }

/-! ### Binary64 arithmetic used by `ToGrayScale`

A double constant is kept as an integer significand over a power of two.  The
product of an 8-bit channel and such a constant is then an exact integer over
the same power of two, which is rounded to 53 significant bits (ties to even)
as IEEE-754 multiplication does, and truncated by the cast to `uint8_t`. -/

/-- Number of binary digits of `p`, computed with `fuel` halvings at most. -/
def bitLenAux : Nat → Nat → Nat
  | 0, _ => 0
  | fuel + 1, p => if p = 0 then 0 else bitLenAux fuel (p / 2) + 1

/-- Number of binary digits of `p` (`0` for `p = 0`). -/
def bitLen (p : Nat) : Nat := bitLenAux p p

/-- Round an integer significand to 53 significant bits, ties to even. -/
def round53 (p : Nat) : Nat :=
  let len := bitLen p
  if len ≤ 53 then p
  else
    let s := len - 53
    let q := p / 2 ^ s
    let r := p % 2 ^ s
    let half := 2 ^ (s - 1)
    let q1 := if r > half ∨ (r = half ∧ q % 2 = 1) then q + 1 else q
    q1 * 2 ^ s

/-- The value of `(uint8_t)(ch * k)` where `ch` is a channel and `k` is the
double `mant / 2 ^ scale`: exact product, rounding to binary64, truncation
towards zero, narrowing to 8 bits. -/
def mulTrunc (ch mant scale : Nat) : Nat :=
  (round53 (ch * mant) / 2 ^ scale) % 256

/-- Significand of the double nearest to `0.299` (`0x1.322d0e5604189p-2`), over `2 ^ 54`. -/
def mant299 : Nat := 5386305154335113
/-- Significand of the double nearest to `0.587` (`0x1.2c8b439581062p-1`), over `2 ^ 53`. -/
def mant587 : Nat := 5287225962532962
/-- Significand of the double nearest to `0.144` (`0x1.26e978d4fdf3bp-3`), over `2 ^ 55`. -/
def mant144 : Nat := 5188146770730811

/-- The transform `ToGrayScale`: each channel is multiplied by its double weight and narrowed
to `uint8_t` on its own; the three bytes are added as `int`, `0.5` is added,
`floor` is taken (all exact in binary64) and the result is narrowed to
`uint8_t`.  The last narrowing is written as reduction modulo 256; ISO C defines
it only while the value is at most 255. -/
def ToGrayScale (PixelColor : RgbColor) : RgbColor :=
  let r := mulTrunc PixelColor.R mant299 54
  let g := mulTrunc PixelColor.G mant587 53
  let b := mulTrunc PixelColor.B mant144 55
  let gray := ((2 * (r + g + b) + 1) / 2) % 256
  { R := gray, G := gray, B := gray }

/-! ## Decimal output (`%u`) -/

/-- Digits of `n`, most significant first, pushed in front of `acc`. -/
def toDigitsAux : Nat → Nat → List Nat → List Nat
  | 0, _, acc => acc
  | fuel + 1, n, acc =>
    if n < 10 then (n + 48) :: acc
    else toDigitsAux fuel (n / 10) ((n % 10 + 48) :: acc)

/-- What `fprintf(f, "%u", n)` writes: the decimal digits of `n`. -/
def printUInt (n : Nat) : List Nat := toDigitsAux (n + 1) n []

/-! ## Input streams (`fgetc`, `fgets`, `fscanf`, `fread`) -/

/-- The C function `isspace` in the C locale: space, `\t`, `\n`, `\v`, `\f`, `\r`. -/
def isspace (c : Nat) : Bool := decide (c = 32 ∨ (9 ≤ c ∧ c ≤ 13))

/-- The C function `isdigit`: the characters `'0'` to `'9'`. -/
def isdigit (c : Nat) : Bool := decide (48 ≤ c ∧ c ≤ 57)

/-- The function `fpeek`: the next byte, left in the stream; `none` is `EOF`. -/
def fpeek (hStream : List Nat) : Option Nat := hStream.head?

/-- The loop `while (c = fpeek(hFile), c == '\n' || c == '\r') fgetc(hFile);`. -/
def skipLineBreaks : List Nat → List Nat
  | [] => []
  | c :: cs => if c = 10 ∨ c = 13 then skipLineBreaks cs else c :: cs

/-- Read at most `k` bytes, stopping after a line feed: the bytes stored and
the stream left. -/
def fgetsAux : Nat → List Nat → List Nat × List Nat
  | 0, s => ([], s)
  | _ + 1, [] => ([], [])
  | k + 1, c :: cs =>
    if c = 10 then ([c], cs)
    else ((fgetsAux k cs).1.cons c, (fgetsAux k cs).2)

/-- The call `fgets(buf, n, f)`: at most `n - 1` bytes are read, a line feed ends the
read and is kept. -/
def fgets (n : Nat) (hFile : List Nat) : List Nat × List Nat := fgetsAux (n - 1) hFile

/-- The enum constant `MAX_BUFFER_SIZE` of `ClearComment`. -/
def MAX_BUFFER_SIZE : Nat := 1024

/-- The function `ClearComment`, on an open stream: skip line feeds and carriage returns,
then, when the next byte is `'#'`, one `fgets(line, MAX_BUFFER_SIZE - 1, hFile)`. -/
def ClearComment (hFile : List Nat) : List Nat :=
  if fpeek (skipLineBreaks hFile) = some 35 then
    (fgets (MAX_BUFFER_SIZE - 1) (skipLineBreaks hFile)).2
  else skipLineBreaks hFile

/-- White space skipped in front of a conversion and by a white-space directive. -/
def skipSpace : List Nat → List Nat
  | [] => []
  | c :: cs => if isspace c then skipSpace cs else c :: cs

/-- An optional sign in front of the digits: whether it was `'-'`, and the stream after it. -/
def skipSign : List Nat → Bool × List Nat
  | [] => (false, [])
  | c :: cs =>
    if c = 45 then (true, cs) else if c = 43 then (false, cs) else (false, c :: cs)

/-- The longest run of decimal digits at the head of the stream, and the stream after it. -/
def takeDigits : List Nat → List Nat × List Nat
  | [] => ([], [])
  | c :: cs =>
    if isdigit c then ((takeDigits cs).1.cons c, (takeDigits cs).2) else ([], c :: cs)

/-- The number a run of decimal digits denotes. -/
def digitsValue (ds : List Nat) : Nat := ds.foldl (fun acc c => acc * 10 + (c - 48)) 0

/-- One unsigned decimal conversion (`%u` with `bits = 32`, `%hhu` with
`bits = 8`): white space is skipped, a sign is accepted, and the digits are
converted as the C library converts them, through an `unsigned long` of 64
bits: a number above `ULONG_MAX` becomes `ULONG_MAX` (whatever the sign), any
other number is negated modulo `2 ^ 64` after a `'-'`.  That value is then
narrowed to the object of `bits` bits.  The result is the stored value (`none`
when no digit follows, in which case nothing is stored) and the stream after
the directive. -/
def scanUnsigned (bits : Nat) (hFile : List Nat) : Option Nat × List Nat :=
  let signed := skipSign (skipSpace hFile)
  let run := takeDigits signed.2
  if run.1 = [] then (none, run.2)
  else
    let v := digitsValue run.1
    let ul := if 2 ^ 64 ≤ v then 2 ^ 64 - 1
      else if signed.1 then (2 ^ 64 - v) % 2 ^ 64 else v
    (some (ul % 2 ^ bits), run.2)

/-- The call `fscanf(hFile, "%u", &x)`: the new value of `x` and the stream afterwards. -/
def fscanf_u (x : Nat) (hFile : List Nat) : Nat × List Nat :=
  match scanUnsigned 32 hFile with
  | (some v, rest) => (v, rest)
  | (none, rest) => (x, rest)

/-- Result of `fscanf(hFile, "%hhu%hhu%hhu\n", &r, &g, &b)`: the number of
values assigned, the three variables afterwards, and the stream afterwards. -/
structure TripleScan where
  count : Nat
  r : Nat
  g : Nat
  b : Nat
  rest : List Nat
deriving DecidableEq, Repr

/-- The call `fscanf(hFile, "%hhu%hhu%hhu\n", &r, &g, &b)`.  The directives are executed
in order and the first one that fails ends the call; the final white-space
directive runs only after three conversions.  `count` is the number of
assignments (where the C function returns `0` or `EOF` the count is `0`; the
caller only compares the result with `3`). -/
def fscanf_hhu3 (r g b : Nat) (hFile : List Nat) : TripleScan :=
  match scanUnsigned 8 hFile with
  | (none, s1) => ⟨0, r, g, b, s1⟩
  | (some r1, s1) =>
    match scanUnsigned 8 s1 with
    | (none, s2) => ⟨1, r1, g, b, s2⟩
    | (some g1, s2) =>
      match scanUnsigned 8 s2 with
      | (none, s3) => ⟨2, r1, g1, b, s3⟩
      | (some b1, s3) => ⟨3, r1, g1, b1, skipSpace s3⟩

/-- Result of `fread`: the number of complete items read, the bytes stored in
the destination, and the stream afterwards. -/
structure ReadBlock where
  count : Nat
  bytes : List Nat
  rest : List Nat
deriving DecidableEq, Repr

/-- The call `fread(ptr, size, nmemb, f)`: returns zero and reads nothing when `size` or
`nmemb` is zero; otherwise reads up to `size * nmemb` bytes and returns the
number of complete items. -/
def fread (size nmemb : Nat) (hFile : List Nat) : ReadBlock :=
  if size = 0 ∨ nmemb = 0 then ⟨0, [], hFile⟩
  else ⟨(hFile.take (size * nmemb)).length / size, hFile.take (size * nmemb),
        hFile.drop (size * nmemb)⟩

/-- A byte buffer read as an array of `RgbColor` (three bytes per cell, no padding). -/
def chunk3 : List Nat → List RgbColor
  | r :: g :: b :: rest => ⟨r, g, b⟩ :: chunk3 rest
  | _ => []

/-! ## The decoder `LoadImage` -/

/-- A call of `malloc` made by `LoadImage`. -/
inductive Alloc where
  | imageRecord
  | pixelBuffer (imgSize : Nat)
deriving DecidableEq, Repr

/-- How a call of `LoadImage` ends: it returns the null pointer, it returns an
image, an assertion stops the run, or it has stored colours outside the pixel
buffer.  The source does not check the index of a store, and C leaves open what
becomes of a run after such a store (it may go on and return the image record,
or be stopped by the system): `overflow` records the stores in program order,
each with the cell index it was made at, and the image record the call returns
if the run goes on. -/
inductive LoadResult where
  | null
  | image (pImage : PpmImage)
  | abort
  | overflow (pImage : PpmImage) (stray : List (Nat × RgbColor))
deriving DecidableEq, Repr

/-- Result of `LoadImage` together with the allocations it made, in order. -/
structure LoadOutcome where
  result : LoadResult
  allocs : List Alloc
deriving DecidableEq, Repr

/-- The variables the ASCII pixel loop updates: the stream, the pixel buffer
and the locals `r`, `g`, `b`; `stray` collects the stores the loop made at
indices outside the buffer, in program order. -/
structure PixelScan where
  hFile : List Nat
  ColorBuffer : List RgbColor
  r : Nat
  g : Nat
  b : Nat
  stray : List (Nat × RgbColor)
deriving DecidableEq, Repr

/-- Body of the inner loop of the ASCII branch: the store to the cell
`y * imgWidth + x` (computed in `size_t`) is made only when three values were
read.  The source does not compare the index with the size of the buffer: a
store at an index the buffer does not have leaves the buffer as it is and is
added to `stray`, and the loop goes on. -/
def scanPixel (imgWidth y x : Nat) (st : PixelScan) : PixelScan :=
  let t := fscanf_hhu3 st.r st.g st.b st.hFile
  if t.count = 3 then
    if (y * imgWidth + x) % 2 ^ 64 < st.ColorBuffer.length then
      ⟨t.rest, st.ColorBuffer.set ((y * imgWidth + x) % 2 ^ 64) ⟨t.r, t.g, t.b⟩,
        t.r, t.g, t.b, st.stray⟩
    else
      ⟨t.rest, st.ColorBuffer, t.r, t.g, t.b,
        st.stray ++ [((y * imgWidth + x) % 2 ^ 64, ⟨t.r, t.g, t.b⟩)]⟩
  else ⟨t.rest, st.ColorBuffer, t.r, t.g, t.b, st.stray⟩

/-- The first `n` iterations of `for (x = ...; x < imgWidth; ++x)` starting at column `x`. -/
def scanRow (imgWidth y : Nat) : Nat → Nat → PixelScan → PixelScan
  | 0, _, st => st
  | n + 1, x, st => scanRow imgWidth y n (x + 1) (scanPixel imgWidth y x st)

/-- The first `n` iterations of `for (y = ...; y < imgHeigth; ++y)` starting at row `y`. -/
def scanRows (imgWidth : Nat) : Nat → Nat → PixelScan → PixelScan
  | 0, _, st => st
  | n + 1, y, st => scanRows imgWidth n (y + 1) (scanRow imgWidth y imgWidth 0 st)

/-- What the ASCII branch returns once the loops are done: the image record
with the pixel buffer, marked `overflow` when a store was made outside the
buffer. -/
def asciiResult (imgWidth imgHeigth : Nat) (st : PixelScan) : LoadResult :=
  if st.stray = [] then
    LoadResult.image ⟨imgWidth, imgHeigth, st.ColorBuffer, PPM_MODE.PPM_MODE_P3⟩
  else
    LoadResult.overflow ⟨imgWidth, imgHeigth, st.ColorBuffer, PPM_MODE.PPM_MODE_P3⟩ st.stray

/-- The function `LoadImage` from the point where the file is open.  `heap i` is the content
`malloc` leaves in cell `i` of the pixel buffer.  Both allocations are taken to
succeed. -/
def LoadStream (heap : Nat → RgbColor) (hFile0 : List Nat) : LoadOutcome :=
  let sign := fgets 3 (ClearComment hFile0)
  -- `szImageSign` starts as three NUL bytes; `fgets` stores the bytes read and a NUL
  let mode : Int := (sign.1.getD 1 0 : Nat) - 48
  if mode ≠ 3 ∧ mode ≠ 6 then ⟨LoadResult.null, []⟩
  else
    let w := fscanf_u 0 (ClearComment sign.2)
    let h := fscanf_u 0 (ClearComment w.2)
    let m := fscanf_u 0 (ClearComment h.2)
    let imgWidth := w.1
    let imgHeigth := h.1
    -- `imgWidth * imgHeigth` is a 32-bit product, widened for `* sizeof(RgbColor)`
    let cells := (imgWidth * imgHeigth) % 2 ^ 32
    let imgSize := (cells * 3) % 2 ^ 64
    let allocs := [Alloc.imageRecord, Alloc.pixelBuffer imgSize]
    if mode = 3 then
      ⟨asciiResult imgWidth imgHeigth
          (scanRows imgWidth imgHeigth 0 ⟨m.2, (List.range cells).map heap, 0, 0, 0, []⟩),
        allocs⟩
    else
      let rd := fread imgSize 1 m.2
      if rd.count = 1 then
        ⟨LoadResult.image ⟨imgWidth, imgHeigth, chunk3 rd.bytes, PPM_MODE.PPM_MODE_P6⟩, allocs⟩
      else ⟨LoadResult.abort, allocs⟩

/-- The files the program can see: the content of each path that can be opened
for reading, and whether a path can be opened for writing. -/
structure FileSystem where
  content : List Nat → Option (List Nat)
  writable : List Nat → Bool

/-- The file system after `name` has been created or truncated and `bytes` written to it. -/
def FileSystem.store (fs : FileSystem) (name bytes : List Nat) : FileSystem :=
  { content := fun p => if p = name then some bytes else fs.content p
    writable := fs.writable }

/-- A file system holding one file, in which every path can be opened for writing. -/
def FileSystem.single (name bytes : List Nat) : FileSystem :=
  { content := fun p => if p = name then some bytes else none
    writable := fun _ => true }

/-- The function `LoadImage(filename)`; a `none` filename is the null pointer, `[]` the empty string. -/
def LoadImage (fs : FileSystem) (heap : Nat → RgbColor) (filename : Option (List Nat)) :
    LoadOutcome :=
  match filename with
  | none => ⟨LoadResult.null, []⟩
  | some name =>
    if name = [] then ⟨LoadResult.null, []⟩
    else
      match fs.content name with
      | none => ⟨LoadResult.null, []⟩
      | some bytes => LoadStream heap bytes

/-! ## The encoder `WriteToPpm` -/

/-- The function `GetPixel`: `none` when the assertion fails or the load is outside the
buffer.  The index is computed in `uint32_t`. -/
def GetPixel (x y : Nat) (pImage : PpmImage) : Option RgbColor :=
  if x < pImage.Width ∧ y < pImage.Heigth then
    pImage.Pixels.get? ((y * pImage.Width + x) % 2 ^ 32)
  else none

/-- The string `szSignature` selected by the `switch`. -/
def szSignature : PPM_MODE → List Nat
  | PPM_MODE.PPM_MODE_P1 => [80, 49]
  | PPM_MODE.PPM_MODE_P3 => [80, 51]
  | PPM_MODE.PPM_MODE_P6 => [80, 54]

/-- What the loop body writes for one transformed pixel. -/
def emitPixel (mode : PPM_MODE) (Pixel : RgbColor) : List Nat :=
  match mode with
  | PPM_MODE.PPM_MODE_P3 =>
    printUInt Pixel.R ++ 32 :: (printUInt Pixel.G ++ 32 :: (printUInt Pixel.B ++ [10]))
  | PPM_MODE.PPM_MODE_P1 => printUInt Pixel.R ++ [10]
  | PPM_MODE.PPM_MODE_P6 => [Pixel.R, Pixel.G, Pixel.B]

/-- The first `n` iterations of `for (x = ...; x < pImage->Width; ++x)` starting at
column `x`; `out` is what has been written so far. -/
def writeRow (pImage : PpmImage) (mode : PPM_MODE) (pfnTransform : RgbColor → RgbColor)
    (y : Nat) : Nat → Nat → List Nat → Option (List Nat)
  | 0, _, out => some out
  | n + 1, x, out =>
    match GetPixel x y pImage with
    | none => none
    | some Pixel => writeRow pImage mode pfnTransform y n (x + 1)
        (out ++ emitPixel mode (pfnTransform Pixel))

/-- The first `n` iterations of `for (y = ...; y < pImage->Heigth; ++y)` starting at row `y`. -/
def writeRows (pImage : PpmImage) (mode : PPM_MODE) (pfnTransform : RgbColor → RgbColor) :
    Nat → Nat → List Nat → Option (List Nat)
  | 0, _, out => some out
  | n + 1, y, out =>
    match writeRow pImage mode pfnTransform y pImage.Width 0 out with
    | none => none
    | some out1 => writeRows pImage mode pfnTransform n (y + 1) out1

/-- The header `fprintf(hFile, "%s\n%u %u\n255\n", szSignature, Width, Heigth)`. -/
def writeHeader (mode : PPM_MODE) (Width Heigth : Nat) : List Nat :=
  szSignature mode ++ 10 :: (printUInt Width ++ 32 :: (printUInt Heigth ++ [10, 50, 53, 53, 10]))

/-- Everything `WriteToPpm` writes to the open file; `none` when `GetPixel`
stops the run.  Writes are taken to succeed. -/
def WriteStream (pImage : PpmImage) (mode : PPM_MODE) (pfnTransform : RgbColor → RgbColor) :
    Option (List Nat) :=
  writeRows pImage mode pfnTransform pImage.Heigth 0
    (writeHeader mode pImage.Width pImage.Heigth)

/-- How a call of `WriteToPpm` ends: it returns, leaving a file system, or the
run is stopped inside the pixel loop. -/
inductive WriteOutcome where
  | returned (fs : FileSystem)
  | aborted

/-- The function `WriteToPpm(filename, pImage, mode, pfnTransform)`; `none` is a null pointer.
Line feeds are written as single bytes in both open modes. -/
def WriteToPpm (fs : FileSystem) (filename : Option (List Nat)) (pImage : Option PpmImage)
    (mode : PPM_MODE) (pfnTransform : Option (RgbColor → RgbColor)) : WriteOutcome :=
  match filename, pImage, pfnTransform with
  | some name, some img, some pfn =>
    if name = [] then WriteOutcome.returned fs
    else if fs.writable name = false then WriteOutcome.returned fs
    else
      match WriteStream img mode pfn with
      | some bytes => WriteOutcome.returned (fs.store name bytes)
      | none => WriteOutcome.aborted
  | _, _, _ => WriteOutcome.returned fs

/-- The signature token: what `fgets(szImageSign, sizeof szImageSign, hFile)`
reads after the first `ClearComment`. -/
def signatureToken (input : List Nat) : List Nat := (fgets 3 (ClearComment input)).1

/-- The content of the file `name` once `WriteToPpm` has returned (`none` when
the run was stopped or the file does not exist). -/
def WriteOutcome.content : WriteOutcome → List Nat → Option (List Nat)
  | WriteOutcome.returned fs, name => fs.content name
  | WriteOutcome.aborted, _ => none

/-- Decode the file `src` with `LoadImage` and write the image to `dst` with
`WriteToPpm` in P6 mode and `DefaultAct` (the macro `WRITE_PPM_FILE` with mode
P6): the content of `dst` afterwards. -/
def reencodeP6 (fs : FileSystem) (heap : Nat → RgbColor) (src dst : List Nat) :
    Option (List Nat) :=
  match (LoadImage fs heap (some src)).result with
  | LoadResult.image pImage =>
    (WriteToPpm fs (some dst) (some pImage) PPM_MODE.PPM_MODE_P6 (some DefaultAct)).content dst
  | _ => none

/-! ## The file layout named by the specification

The definitions below follow the words of the specification, not the code:
decimal numbers are the standard rendering `toString`. -/

/-- One pixel of the pixel section, as `mode` prescribes: `"R G B\n"` (P3),
`"R\n"` (P1, the red channel only) or the three raw bytes (P6). -/
def layoutPixel (mode : PPM_MODE) (c : RgbColor) : List Nat :=
  match mode with
  | PPM_MODE.PPM_MODE_P3 =>
    ascii (toString c.R ++ " " ++ toString c.G ++ " " ++ toString c.B ++ "\n")
  | PPM_MODE.PPM_MODE_P1 => ascii (toString c.R ++ "\n")
  | PPM_MODE.PPM_MODE_P6 => [c.R, c.G, c.B]

/-- The pixel section of a file: the layout of each colour, in order. -/
def layoutPixels (mode : PPM_MODE) : List RgbColor → List Nat
  | [] => []
  | c :: cs => layoutPixel mode c ++ layoutPixels mode cs

/-- The header line `"<SIG>\n<width> <height>\n255\n"`. -/
def layoutHeader (mode : PPM_MODE) (width height : Nat) : List Nat :=
  match mode with
  | PPM_MODE.PPM_MODE_P1 => ascii ("P1\n" ++ toString width ++ " " ++ toString height ++ "\n255\n")
  | PPM_MODE.PPM_MODE_P3 => ascii ("P3\n" ++ toString width ++ " " ++ toString height ++ "\n255\n")
  | PPM_MODE.PPM_MODE_P6 => ascii ("P6\n" ++ toString width ++ " " ++ toString height ++ "\n255\n")

/-- The reference layout of an encoded image: the header, then every pixel of
the image in row-major order, transformed. -/
def referenceLayout (pImage : PpmImage) (mode : PPM_MODE) (t : RgbColor → RgbColor) :
    List Nat :=
  layoutHeader mode pImage.Width pImage.Heigth ++ layoutPixels mode (pImage.Pixels.map t)

/-! ## The header fields and the pixel reads, as the decoder reaches them -/

/-- The value `imgWidth` after `ClearComment(hFile); fscanf(hFile, "%u", &imgWidth)`. -/
def headerWidth (hFile0 : List Nat) : Nat :=
  (fscanf_u 0 (ClearComment (fgets 3 (ClearComment hFile0)).2)).1

/-- The stream after the width has been read. -/
def afterWidth (hFile0 : List Nat) : List Nat :=
  (fscanf_u 0 (ClearComment (fgets 3 (ClearComment hFile0)).2)).2

/-- The value `imgHeigth` after `ClearComment(hFile); fscanf(hFile, "%u", &imgHeigth)`. -/
def headerHeigth (hFile0 : List Nat) : Nat :=
  (fscanf_u 0 (ClearComment (afterWidth hFile0))).1

/-- The stream at the point where `fscanf(hFile, "%u", &maxColor)` is called:
the height has been read and the third `ClearComment` of the header has run. -/
def maxColorStream (hFile0 : List Nat) : List Nat :=
  ClearComment (fscanf_u 0 (ClearComment (afterWidth hFile0))).2

/-- The stream at the point where the digits of the max-colour field are
converted: `fscanf(hFile, "%u", &maxColor)` has skipped white space and an
optional sign. -/
def maxColorDigits (hFile0 : List Nat) : List Nat :=
  (skipSign (skipSpace (maxColorStream hFile0))).2

/-- The stream at the point where the pixel data is read: the three header
fields have been read. -/
def pixelStream (hFile0 : List Nat) : List Nat :=
  (fscanf_u 0 (maxColorStream hFile0)).2

/-- The next call of `fscanf(hFile, "%hhu%hhu%hhu\n", &r, &g, &b)` after a call
that left the variables and the stream as `t` records them. -/
def nextScan (t : TripleScan) : TripleScan := fscanf_hhu3 t.r t.g t.b t.rest

/-- The results of `n` successive calls of `fscanf(hFile, "%hhu%hhu%hhu\n", ...)`,
in order, the first call finding the variables and the stream as `t` records them. -/
def scanTrace : Nat → TripleScan → List TripleScan
  | 0, _ => []
  | n + 1, t => nextScan t :: scanTrace n (nextScan t)

/-- The content of a cell after the body of the ASCII loop: the colour read
when three values were assigned, the content the cell had otherwise. -/
def mergeCell (t : TripleScan) (old : RgbColor) : RgbColor :=
  if t.count = 3 then ⟨t.r, t.g, t.b⟩ else old

end PpmManip

namespace PpmManip
open PPM_MODE

/-! ## Grayscale transforms -/

/-- C7: for every colour with 8-bit channels, `ToGrayScaleP3` returns
`(gray, gray, gray)` with `gray = floor((R + G + B) / 3)` computed on the
unwrapped sum, and `gray ≤ 255`, so the narrowing to 8 bits loses nothing. -/
theorem ToGrayScaleP3_average (c : RgbColor) (hc : c.valid) :
    ToGrayScaleP3 c =
        ⟨(c.R + c.G + c.B) / 3, (c.R + c.G + c.B) / 3, (c.R + c.G + c.B) / 3⟩ ∧
      0 ≤ (c.R + c.G + c.B) / 3 ∧ (c.R + c.G + c.B) / 3 ≤ 255 := by
  obtain ⟨hr, hg, hb⟩ := hc
  have hle : (c.R + c.G + c.B) / 3 ≤ 255 := by omega
  have hmod : (c.R + c.G + c.B) / 3 % 256 = (c.R + c.G + c.B) / 3 :=
    Nat.mod_eq_of_lt (by omega)
  refine ⟨?_, Nat.zero_le _, hle⟩
  simp only [ToGrayScaleP3, hmod]

theorem ToGrayScaleP3_average_witness :
    ToGrayScaleP3 ⟨255, 0, 0⟩ = ⟨(255 + 0 + 0) / 3, (255 + 0 + 0) / 3, (255 + 0 + 0) / 3⟩ ∧
      0 ≤ (255 + 0 + 0) / 3 ∧ (255 + 0 + 0) / 3 ≤ 255 :=
  ToGrayScaleP3_average ⟨255, 0, 0⟩ (by decide)

/-- The significands are those of the doubles nearest to the decimal weights:
53 bits each, and within half a unit in the last place of the exact weight. -/
theorem weight_significands_nearest :
    (2 ^ 52 ≤ mant299 ∧ mant299 < 2 ^ 53 ∧
        2 * ((mant299 * 1000 : Int) - 299 * 2 ^ 54).natAbs ≤ 1000) ∧
      (2 ^ 52 ≤ mant587 ∧ mant587 < 2 ^ 53 ∧
        2 * ((mant587 * 1000 : Int) - 587 * 2 ^ 53).natAbs ≤ 1000) ∧
      (2 ^ 52 ≤ mant144 ∧ mant144 < 2 ^ 53 ∧
        2 * ((mant144 * 1000 : Int) - 144 * 2 ^ 55).natAbs ≤ 1000) := by
  decide

set_option maxRecDepth 100000 in
/-- The rounded double product `ch * 0.299`, truncated, is `floor(ch * 299 / 1000)`. -/
theorem mulTrunc_299 : ∀ ch, ch < 256 → mulTrunc ch mant299 54 = ch * 299 / 1000 := by
  decide

set_option maxRecDepth 100000 in
/-- The rounded double product `ch * 0.587`, truncated, is `floor(ch * 587 / 1000)`. -/
theorem mulTrunc_587 : ∀ ch, ch < 256 → mulTrunc ch mant587 53 = ch * 587 / 1000 := by
  decide

set_option maxRecDepth 100000 in
/-- The rounded double product `ch * 0.144`, truncated, is `floor(ch * 144 / 1000)`. -/
theorem mulTrunc_144 : ∀ ch, ch < 256 → mulTrunc ch mant144 55 = ch * 144 / 1000 := by
  decide

/-- C8: for every colour with 8-bit channels, `ToGrayScale` returns three equal
channels `gray = (floor(R*299/1000) + floor(G*587/1000) + floor(B*144/1000)) mod 256`:
each weighted channel is truncated on its own before the sum, and the sum is
reduced by 8-bit wraparound; white, whose truncated weighted sum is
`76 + 149 + 36 = 261`, maps to `(5, 5, 5)`. -/
theorem ToGrayScale_truncated_weights (c : RgbColor) (hc : c.valid) :
    ToGrayScale c =
        ⟨(c.R * 299 / 1000 + c.G * 587 / 1000 + c.B * 144 / 1000) % 256,
         (c.R * 299 / 1000 + c.G * 587 / 1000 + c.B * 144 / 1000) % 256,
         (c.R * 299 / 1000 + c.G * 587 / 1000 + c.B * 144 / 1000) % 256⟩ ∧
      255 * 299 / 1000 + 255 * 587 / 1000 + 255 * 144 / 1000 = 76 + 149 + 36 ∧
      ToGrayScale ⟨255, 255, 255⟩ = ⟨5, 5, 5⟩ := by
  obtain ⟨hr, hg, hb⟩ := hc
  have hhalf : ∀ s : Nat, (2 * s + 1) / 2 = s := fun s => by omega
  refine ⟨?_, by decide, by decide⟩
  simp only [ToGrayScale, mulTrunc_299 c.R hr, mulTrunc_587 c.G hg, mulTrunc_144 c.B hb, hhalf]

theorem ToGrayScale_truncated_weights_witness :
    ToGrayScale ⟨255, 255, 0⟩ =
        ⟨(255 * 299 / 1000 + 255 * 587 / 1000 + 0 * 144 / 1000) % 256,
         (255 * 299 / 1000 + 255 * 587 / 1000 + 0 * 144 / 1000) % 256,
         (255 * 299 / 1000 + 255 * 587 / 1000 + 0 * 144 / 1000) % 256⟩ ∧
      255 * 299 / 1000 + 255 * 587 / 1000 + 255 * 144 / 1000 = 76 + 149 + 36 ∧
      ToGrayScale ⟨255, 255, 255⟩ = ⟨5, 5, 5⟩ :=
  ToGrayScale_truncated_weights ⟨255, 255, 0⟩ (by decide)

/-! ## The encoder: argument checks and empty images -/

/-- C9: for every file system, when the filename is absent or empty, or the
image is absent, or the transform is absent, `WriteToPpm` returns and the file
system is the one it was called with: no file is opened, created or written. -/
theorem WriteToPpm_missing_argument (fs : FileSystem) (filename : Option (List Nat))
    (pImage : Option PpmImage) (mode : PPM_MODE) (pfnTransform : Option (RgbColor → RgbColor))
    (h : filename = none ∨ filename = some [] ∨ pImage = none ∨ pfnTransform = none) :
    WriteToPpm fs filename pImage mode pfnTransform = WriteOutcome.returned fs := by
  rcases h with h | h | h | h
  · subst h; simp [WriteToPpm]
  · subst h
    cases pImage <;> cases pfnTransform <;> simp [WriteToPpm]
  · subst h
    cases filename <;> simp [WriteToPpm]
  · subst h
    cases filename <;> cases pImage <;> simp [WriteToPpm]

theorem WriteToPpm_missing_argument_witness :
    WriteToPpm (FileSystem.single [97] [1, 2, 3]) (some [])
        (some ⟨1, 1, [⟨1, 2, 3⟩], PPM_MODE_P6⟩) PPM_MODE_P6 (some DefaultAct) =
      WriteOutcome.returned (FileSystem.single [97] [1, 2, 3]) :=
  WriteToPpm_missing_argument (FileSystem.single [97] [1, 2, 3]) (some [])
    (some ⟨1, 1, [⟨1, 2, 3⟩], PPM_MODE_P6⟩) PPM_MODE_P6 (some DefaultAct)
    (Or.inr (Or.inl rfl))

/-- A row of width zero writes nothing and looks no pixel up. -/
theorem writeRows_zero_width (pImage : PpmImage) (mode : PPM_MODE)
    (pfn : RgbColor → RgbColor) (hw : pImage.Width = 0) (n y : Nat) (out : List Nat) :
    writeRows pImage mode pfn n y out = some out := by
  induction n generalizing y with
  | zero => rfl
  | succ n ih => simp only [writeRows, hw, writeRow, ih]

/-- C10: for an image with `Width = 0` or `Heigth = 0`, whatever its pixel
buffer holds (also nothing at all), `WriteToPpm` in P6 mode with any transform
returns after writing exactly the header `"P6\n<Width> <Heigth>\n255\n"` and
no pixel byte; for the 0x0 image the file is `"P6\n0 0\n255\n"`. -/
theorem WriteToPpm_empty_image (fs : FileSystem) (name : List Nat) (img : PpmImage)
    (pfn : RgbColor → RgbColor) (hname : name ≠ []) (hopen : fs.writable name = true)
    (hempty : img.Width = 0 ∨ img.Heigth = 0) :
    WriteToPpm fs (some name) (some img) PPM_MODE_P6 (some pfn) =
        WriteOutcome.returned (fs.store name
          (ascii "P6\n" ++ printUInt img.Width ++ ascii " " ++ printUInt img.Heigth ++
            ascii "\n255\n")) ∧
      (img.Width = 0 → img.Heigth = 0 →
        WriteToPpm fs (some name) (some img) PPM_MODE_P6 (some pfn) =
          WriteOutcome.returned (fs.store name (ascii "P6\n0 0\n255\n"))) := by
  have hstream : WriteStream img PPM_MODE_P6 pfn =
      some (writeHeader PPM_MODE_P6 img.Width img.Heigth) := by
    rcases hempty with h | h
    · exact writeRows_zero_width img _ pfn h _ _ _
    · simp only [WriteStream, h, writeRows]
  have hhead : writeHeader PPM_MODE_P6 img.Width img.Heigth =
      ascii "P6\n" ++ printUInt img.Width ++ ascii " " ++ printUInt img.Heigth ++
        ascii "\n255\n" := by
    have h1 : ascii "P6\n" = [80, 54, 10] := by decide
    have h2 : ascii " " = [32] := by decide
    have h3 : ascii "\n255\n" = [10, 50, 53, 53, 10] := by decide
    simp [writeHeader, szSignature, h1, h2, h3]
  have hres : WriteToPpm fs (some name) (some img) PPM_MODE_P6 (some pfn) =
      WriteOutcome.returned (fs.store name (writeHeader PPM_MODE_P6 img.Width img.Heigth)) := by
    simp only [WriteToPpm, hname, hopen, hstream, if_false]
    simp
  refine ⟨by rw [hres, hhead], fun hw hh => ?_⟩
  rw [hres, hw, hh]
  have : writeHeader PPM_MODE_P6 0 0 = ascii "P6\n0 0\n255\n" := by decide
  rw [this]

theorem WriteToPpm_empty_image_witness :
    WriteToPpm (FileSystem.single [97] []) (some [97]) (some ⟨0, 0, [], PPM_MODE_P6⟩)
          PPM_MODE_P6 (some ToGrayScale) =
        WriteOutcome.returned ((FileSystem.single [97] []).store [97]
          (ascii "P6\n" ++ printUInt 0 ++ ascii " " ++ printUInt 0 ++ ascii "\n255\n")) ∧
      ((0 : Nat) = 0 → (0 : Nat) = 0 →
        WriteToPpm (FileSystem.single [97] []) (some [97]) (some ⟨0, 0, [], PPM_MODE_P6⟩)
            PPM_MODE_P6 (some ToGrayScale) =
          WriteOutcome.returned ((FileSystem.single [97] []).store [97]
            (ascii "P6\n0 0\n255\n"))) :=
  WriteToPpm_empty_image (FileSystem.single [97] []) [97] ⟨0, 0, [], PPM_MODE_P6⟩
    ToGrayScale (by decide) (by decide) (Or.inl rfl)

/-! ## The signature check -/

/-- C5: for every input whose signature token has a second byte other than
`'3'` and `'6'`, or no second byte at all, `LoadImage` returns the null pointer
and performs no allocation: neither the image record nor a pixel buffer. -/
theorem LoadImage_unsupported_format (fs : FileSystem) (heap : Nat → RgbColor)
    (name input : List Nat) (hfile : fs.content name = some input)
    (hsig : (signatureToken input).get? 1 ≠ some 51 ∧ (signatureToken input).get? 1 ≠ some 54) :
    LoadImage fs heap (some name) = ⟨LoadResult.null, []⟩ := by
  unfold LoadImage
  by_cases hn : name = []
  · simp [hn]
  · simp only [hn, if_false, hfile]
    unfold LoadStream
    have hmode : ¬ (((((fgets 3 (ClearComment input)).1.getD 1 0 : Nat) : Int) - 48 = 3) ∨
        ((((fgets 3 (ClearComment input)).1.getD 1 0 : Nat) : Int) - 48 = 6)) := by
      unfold signatureToken at hsig
      rw [List.getD_eq_getElem?_getD]
      simp only [List.get?_eq_getElem?] at hsig
      rcases hget : (fgets 3 (ClearComment input)).1[1]? with _ | v
      · simp
      · rw [hget] at hsig
        have h1 : v ≠ 51 := fun h => hsig.1 (by rw [h])
        have h2 : v ≠ 54 := fun h => hsig.2 (by rw [h])
        simp only [Option.getD_some]
        omega
    simp only [ne_eq]
    rw [if_pos]
    constructor
    · exact fun h => hmode (Or.inl h)
    · exact fun h => hmode (Or.inr h)

theorem LoadImage_unsupported_format_witness :
    LoadImage (FileSystem.single [97] (ascii "P2\n1 1\n255\n1 2 3\n")) (fun _ => ⟨0, 0, 0⟩)
        (some [97]) = ⟨LoadResult.null, []⟩ :=
  LoadImage_unsupported_format (FileSystem.single [97] (ascii "P2\n1 1\n255\n1 2 3\n"))
    (fun _ => ⟨0, 0, 0⟩) [97] (ascii "P2\n1 1\n255\n1 2 3\n") (by decide) (by decide)

/-! ## Decimal output read back by the scanner -/

theorem toDigitsAux_acc (fuel n : Nat) (acc : List Nat) :
    toDigitsAux fuel n acc = toDigitsAux fuel n [] ++ acc := by
  induction fuel generalizing n acc with
  | zero => simp [toDigitsAux]
  | succ fuel ih =>
    simp only [toDigitsAux]
    split
    · simp
    · rw [ih (n / 10) ((n % 10 + 48) :: acc), ih (n / 10) [n % 10 + 48]]
      simp

theorem digitsValue_snoc (ds : List Nat) (d : Nat) :
    digitsValue (ds ++ [d]) = digitsValue ds * 10 + (d - 48) := by
  simp [digitsValue, List.foldl_append]

theorem toDigitsAux_spec (fuel n : Nat) (h : n < fuel) :
    toDigitsAux fuel n [] ≠ [] ∧ (∀ c ∈ toDigitsAux fuel n [], isdigit c = true) ∧
      digitsValue (toDigitsAux fuel n []) = n := by
  induction fuel generalizing n with
  | zero => omega
  | succ fuel ih =>
    simp only [toDigitsAux]
    split
    · rename_i hlt
      refine ⟨by simp, ?_, ?_⟩
      · intro c hc
        simp only [List.mem_singleton] at hc
        subst hc
        simp [isdigit]; omega
      · simp [digitsValue]
    · rename_i hge
      rw [toDigitsAux_acc]
      obtain ⟨_, h2, h3⟩ := ih (n / 10) (by omega)
      refine ⟨by simp, ?_, ?_⟩
      · intro c hc
        rcases List.mem_append.mp hc with hc | hc
        · exact h2 c hc
        · simp only [List.mem_singleton] at hc
          subst hc
          simp [isdigit]; omega
      · rw [digitsValue_snoc, h3]; omega

theorem printUInt_ne_nil (n : Nat) : printUInt n ≠ [] :=
  (toDigitsAux_spec (n + 1) n (Nat.lt_succ_self n)).1

theorem printUInt_isdigit (n c : Nat) (hc : c ∈ printUInt n) : isdigit c = true :=
  (toDigitsAux_spec (n + 1) n (Nat.lt_succ_self n)).2.1 c hc

theorem digitsValue_printUInt (n : Nat) : digitsValue (printUInt n) = n :=
  (toDigitsAux_spec (n + 1) n (Nat.lt_succ_self n)).2.2

/-- The decimal digits written for `%u` are those of the standard rendering of a number. -/
theorem printUInt_eq_repr (n : Nat) : printUInt n = ascii (toString n) := by
  have hd : ∀ d, d < 10 → (Nat.digitChar d).toNat = d + 48 := by decide
  have key : ∀ fuel m (ds : List Char),
      (Nat.toDigitsCore 10 fuel m ds).map Char.toNat = toDigitsAux fuel m (ds.map Char.toNat) := by
    intro fuel
    induction fuel with
    | zero => intro m ds; simp [Nat.toDigitsCore, toDigitsAux]
    | succ fuel ih =>
      intro m ds
      simp only [Nat.toDigitsCore, toDigitsAux]
      by_cases hm : m < 10
      · have h0 : m / 10 = 0 := by omega
        have h1 : m % 10 = m := by omega
        simp [hm, h0, h1, hd m hm]
      · have h0 : m / 10 ≠ 0 := by omega
        simp only [h0, hm, if_false]
        rw [ih]
        simp [hd (m % 10) (Nat.mod_lt _ (by decide))]
  have := key (n + 1) n []
  simpa [printUInt, ascii, Nat.toDigits, Nat.repr, String.toList] using this.symm

/-- A run of digits followed by a non-digit (or the end of the stream) is taken whole. -/
theorem takeDigits_append (ds rest : List Nat) (hds : ∀ c ∈ ds, isdigit c = true)
    (hrest : ∀ c ∈ rest.head?, isdigit c = false) : takeDigits (ds ++ rest) = (ds, rest) := by
  induction ds with
  | nil =>
    cases rest with
    | nil => rfl
    | cons c cs =>
      have : isdigit c = false := hrest c (by simp)
      simp [takeDigits, this]
  | cons d ds ih =>
    have hd : isdigit d = true := hds d (by simp)
    have := ih (fun c hc => hds c (List.mem_cons_of_mem _ hc))
    simp [takeDigits, hd, this]

theorem isdigit_not_space (c : Nat) (h : isdigit c = true) : isspace c = false := by
  simp [isdigit, isspace] at *; omega

theorem skipSpace_of_not_space (c : Nat) (s : List Nat) (h : isspace c = false) :
    skipSpace (c :: s) = c :: s := by
  simp [skipSpace, h]

theorem skipSpace_of_space (c : Nat) (s : List Nat) (h : isspace c = true) :
    skipSpace (c :: s) = skipSpace s := by
  simp [skipSpace, h]

theorem skipSign_of_digit (c : Nat) (s : List Nat) (h : isdigit c = true) :
    skipSign (c :: s) = (false, c :: s) := by
  have : c ≠ 45 ∧ c ≠ 43 := by simp [isdigit] at h; omega
  simp [skipSign, this.1, this.2]

/-- The conversions `%u` and `%hhu` read back what `%u` wrote for a number that
fits an `unsigned long`, reduced to the width of the object. -/
theorem scanUnsigned_printUInt (bits n : Nat) (rest : List Nat)
    (hrest : ∀ c ∈ rest.head?, isdigit c = false) (hn : n < 2 ^ 64) :
    scanUnsigned bits (printUInt n ++ rest) = (some (n % 2 ^ bits), rest) := by
  obtain ⟨d, ds, hp⟩ := List.exists_cons_of_ne_nil (printUInt_ne_nil n)
  have hd : isdigit d = true := printUInt_isdigit n d (by rw [hp]; simp)
  have htake := takeDigits_append (printUInt n) rest (printUInt_isdigit n) hrest
  have hne := printUInt_ne_nil n
  have hval := digitsValue_printUInt n
  have hfit : ¬ (18446744073709551616 ≤ n) := by omega
  unfold scanUnsigned
  rw [hp] at htake hne hval ⊢
  simp only [List.cons_append, skipSpace_of_not_space d _ (isdigit_not_space d hd),
    skipSign_of_digit d _ hd]
  rw [← List.cons_append, htake]
  simp [hval, hfit]

theorem scanUnsigned_space (bits c : Nat) (s : List Nat) (hc : isspace c = true) :
    scanUnsigned bits (c :: s) = scanUnsigned bits s := by
  unfold scanUnsigned
  rw [skipSpace_of_space c s hc]

/-! ## Header scanning -/

theorem fscanf_u_printUInt (x n : Nat) (rest : List Nat)
    (hrest : ∀ c ∈ rest.head?, isdigit c = false) (hn : n < 2 ^ 32) :
    fscanf_u x (printUInt n ++ rest) = (n, rest) := by
  have h := scanUnsigned_printUInt 32 n rest hrest (lt_trans hn (by decide))
  rw [Nat.mod_eq_of_lt hn] at h
  simp [fscanf_u, h]

theorem fscanf_u_space (x c : Nat) (s : List Nat) (hc : isspace c = true) :
    fscanf_u x (c :: s) = fscanf_u x s := by
  simp [fscanf_u, scanUnsigned_space 32 c s hc]

theorem ClearComment_lf (s : List Nat) : ClearComment (10 :: s) = ClearComment s := by
  simp [ClearComment, skipLineBreaks]

theorem ClearComment_of_head (c : Nat) (s : List Nat) (h10 : c ≠ 10) (h13 : c ≠ 13)
    (h35 : c ≠ 35) : ClearComment (c :: s) = c :: s := by
  simp [ClearComment, skipLineBreaks, fpeek, h10, h13, h35]

theorem ClearComment_printUInt (n : Nat) (rest : List Nat) :
    ClearComment (printUInt n ++ rest) = printUInt n ++ rest := by
  obtain ⟨d, ds, hp⟩ := List.exists_cons_of_ne_nil (printUInt_ne_nil n)
  have hd : isdigit d = true := printUInt_isdigit n d (by rw [hp]; simp)
  have : d ≠ 10 ∧ d ≠ 13 ∧ d ≠ 35 := by simp [isdigit] at hd; omega
  rw [hp, List.cons_append]
  exact ClearComment_of_head d _ this.1 this.2.1 this.2.2

/-- The call `fgets` reads a whole line when the line, its line feed included, fits. -/
theorem fgetsAux_line (k : Nat) (line rest : List Nat) (hline : 10 ∉ line)
    (hlen : line.length < k) : fgetsAux k (line ++ 10 :: rest) = (line ++ [10], rest) := by
  induction line generalizing k with
  | nil =>
    obtain ⟨k, rfl⟩ : ∃ j, k = j + 1 := ⟨k - 1, by simp at hlen; omega⟩
    simp [fgetsAux]
  | cons c cs ih =>
    obtain ⟨k, rfl⟩ : ∃ j, k = j + 1 := ⟨k - 1, by simp at hlen; omega⟩
    have hc : c ≠ 10 := fun h => hline (by simp [h])
    have hcs : 10 ∉ cs := fun h => hline (List.mem_cons_of_mem _ h)
    have := ih k hcs (by simp at hlen; omega)
    simp [fgetsAux, hc, this]

/-- One comment line of at most 1020 bytes of text is skipped whole. -/
theorem ClearComment_comment (text rest : List Nat) (htext : 10 ∉ text)
    (hlen : text.length ≤ 1020) : ClearComment (35 :: (text ++ 10 :: rest)) = rest := by
  have h := fgetsAux_line 1022 (35 :: text) rest
    (by simp only [List.mem_cons, not_or]; exact ⟨by decide, htext⟩)
    (by simp only [List.length_cons]; omega)
  simp only [ClearComment, skipLineBreaks, fpeek, fgets, MAX_BUFFER_SIZE]
  simp only [List.cons_append] at h
  simp [h]

/-- The decoder after a two-byte signature and the three header fields. -/
theorem LoadStream_of_header (heap : Nat → RgbColor) (s0 s1 s2 s3 s4 : List Nat)
    (c0 digit w h m : Nat)
    (hsig : fgets 3 (ClearComment s0) = ([c0, digit], s1))
    (hw : fscanf_u 0 (ClearComment s1) = (w, s2))
    (hh : fscanf_u 0 (ClearComment s2) = (h, s3))
    (hm : fscanf_u 0 (ClearComment s3) = (m, s4)) :
    LoadStream heap s0 =
      if digit = 51 then
        ⟨asciiResult w h
            (scanRows w h 0 ⟨s4, (List.range (w * h % 2 ^ 32)).map heap, 0, 0, 0, []⟩),
          [Alloc.imageRecord, Alloc.pixelBuffer (w * h % 2 ^ 32 * 3 % 2 ^ 64)]⟩
      else if digit = 54 then
        if (fread (w * h % 2 ^ 32 * 3 % 2 ^ 64) 1 s4).count = 1 then
          ⟨LoadResult.image ⟨w, h, chunk3 (fread (w * h % 2 ^ 32 * 3 % 2 ^ 64) 1 s4).bytes,
              PPM_MODE_P6⟩,
            [Alloc.imageRecord, Alloc.pixelBuffer (w * h % 2 ^ 32 * 3 % 2 ^ 64)]⟩
        else ⟨LoadResult.abort,
            [Alloc.imageRecord, Alloc.pixelBuffer (w * h % 2 ^ 32 * 3 % 2 ^ 64)]⟩
      else ⟨LoadResult.null, []⟩ := by
  unfold LoadStream
  simp only [hsig, hw, hh, hm, List.getD_cons_succ, List.getD_cons_zero]
  by_cases h3 : digit = 51
  · subst h3; simp
  · by_cases h6 : digit = 54
    · subst h6; simp
    · have e3 : ¬ ((digit : Int) - 48 = 3) := by omega
      have e6 : ¬ ((digit : Int) - 48 = 6) := by omega
      simp [h3, h6, e3, e6]

/-- The three header fields of `"<w> <h>\n255"` as the decoder reads them,
after a signature followed by `gap`, a stretch that `ClearComment` skips. -/
theorem header_fields (c0 digit w h : Nat)
    (gap tail : List Nat) (hc0 : c0 ≠ 10 ∧ c0 ≠ 13 ∧ c0 ≠ 35) (hdigit : digit ≠ 10)
    (hgap : ∀ s, ClearComment (gap ++ (printUInt w ++ s)) = printUInt w ++ s)
    (hw : w < 2 ^ 32) (hh : h < 2 ^ 32) :
    fgets 3 (ClearComment (c0 :: digit :: (gap ++ (printUInt w ++ 32 :: (printUInt h ++
        10 :: 50 :: 53 :: 53 :: 10 :: tail))))) =
        ([c0, digit], gap ++ (printUInt w ++ 32 :: (printUInt h ++
        10 :: 50 :: 53 :: 53 :: 10 :: tail))) ∧
      fscanf_u 0 (ClearComment (gap ++ (printUInt w ++ 32 :: (printUInt h ++
        10 :: 50 :: 53 :: 53 :: 10 :: tail)))) =
        (w, 32 :: (printUInt h ++ 10 :: 50 :: 53 :: 53 :: 10 :: tail)) ∧
      fscanf_u 0 (ClearComment (32 :: (printUInt h ++ 10 :: 50 :: 53 :: 53 :: 10 :: tail))) =
        (h, 10 :: 50 :: 53 :: 53 :: 10 :: tail) ∧
      fscanf_u 0 (ClearComment (10 :: 50 :: 53 :: 53 :: 10 :: tail)) = (255, 10 :: tail) := by
  refine ⟨?_, ?_, ?_, ?_⟩
  · rw [ClearComment_of_head c0 _ hc0.1 hc0.2.1 hc0.2.2]
    simp [fgets, fgetsAux, hc0.1, hdigit]
  · rw [hgap]
    exact fscanf_u_printUInt 0 w _ (by simp [isdigit]) hw
  · rw [ClearComment_of_head 32 _ (by decide) (by decide) (by decide),
      fscanf_u_space 0 32 _ (by decide)]
    exact fscanf_u_printUInt 0 h _ (by simp [isdigit]) hh
  · rw [ClearComment_lf, ClearComment_of_head 50 _ (by decide) (by decide) (by decide)]
    have hp : printUInt 255 = [50, 53, 53] := by decide
    have := fscanf_u_printUInt 0 255 (10 :: tail) (by simp [isdigit]) (by decide)
    rw [hp] at this
    simpa using this

/-! ## Binary decoding -/

theorem FileSystem.single_content (name bytes : List Nat) :
    (FileSystem.single name bytes).content name = some bytes := by
  simp [FileSystem.single]

theorem LoadImage_of_file (fs : FileSystem) (heap : Nat → RgbColor) (name input : List Nat)
    (hname : name ≠ []) (hfile : fs.content name = some input) :
    LoadImage fs heap (some name) = LoadStream heap input := by
  simp [LoadImage, hname, hfile]

theorem fread_one (size : Nat) (s : List Nat) (hpos : 0 < size) (hlen : size ≤ s.length) :
    fread size 1 s = ⟨1, s.take size, s.drop size⟩ := by
  have h0 : size ≠ 0 := by omega
  have hl : (s.take size).length = size := by simp [List.length_take]; omega
  simp [fread, h0, hl, Nat.div_self hpos]

theorem fread_zero (s : List Nat) : fread 0 1 s = ⟨0, [], s⟩ := by
  simp [fread]

/-- The binary branch after the header `"<c0>6" gap "<w> <h>\n255"`: the block
read by `fread` starts at the byte that follows the digits of the max-colour
field. -/
theorem LoadStream_binary (heap : Nat → RgbColor) (c0 w h : Nat) (gap tail : List Nat)
    (hc0 : c0 ≠ 10 ∧ c0 ≠ 13 ∧ c0 ≠ 35)
    (hgap : ∀ s, ClearComment (gap ++ (printUInt w ++ s)) = printUInt w ++ s)
    (hw : w < 2 ^ 32) (hh : h < 2 ^ 32) :
    LoadStream heap (c0 :: 54 :: (gap ++ (printUInt w ++ 32 :: (printUInt h ++
        10 :: 50 :: 53 :: 53 :: 10 :: tail)))) =
      if (fread (w * h % 2 ^ 32 * 3) 1 (10 :: tail)).count = 1 then
        ⟨LoadResult.image ⟨w, h, chunk3 (fread (w * h % 2 ^ 32 * 3) 1 (10 :: tail)).bytes,
            PPM_MODE_P6⟩,
          [Alloc.imageRecord, Alloc.pixelBuffer (w * h % 2 ^ 32 * 3)]⟩
      else ⟨LoadResult.abort, [Alloc.imageRecord, Alloc.pixelBuffer (w * h % 2 ^ 32 * 3)]⟩ := by
  obtain ⟨h1, h2, h3, h4⟩ := header_fields c0 54 w h gap tail hc0 (by decide) hgap hw hh
  rw [LoadStream_of_header heap _ _ _ _ _ c0 54 w h 255 h1 h2 h3 h4]
  have hsz : w * h % 2 ^ 32 * 3 % 2 ^ 64 = w * h % 2 ^ 32 * 3 := by
    have : w * h % 2 ^ 32 < 2 ^ 32 := Nat.mod_lt _ (by decide)
    omega
  rw [hsz, if_neg (by decide), if_pos rfl]

/-- The gap between `"P6"` and the width in a header with one comment line. -/
theorem comment_gap (text : List Nat) (htext : 10 ∉ text) (hlen : text.length ≤ 1020)
    (w : Nat) (s : List Nat) :
    ClearComment ((10 :: 35 :: (text ++ [10])) ++ (printUInt w ++ s)) = printUInt w ++ s := by
  have : (10 :: 35 :: (text ++ [10])) ++ (printUInt w ++ s) =
      10 :: 35 :: (text ++ 10 :: (printUInt w ++ s)) := by simp
  rw [this, ClearComment_lf, ClearComment_comment text _ htext hlen]

/-- The gap between the signature and the width in a header without comment. -/
theorem plain_gap (w : Nat) (s : List Nat) :
    ClearComment ([10] ++ (printUInt w ++ s)) = printUInt w ++ s := by
  rw [List.singleton_append, ClearComment_lf, ClearComment_printUInt]

/-- The decoder on a binary header with one comment line. -/
theorem LoadStream_comment_header (heap : Nat → RgbColor) (text d : List Nat) (w h : Nat)
    (htext : 10 ∉ text) (hlen : text.length ≤ 1020) (hw : w < 2 ^ 32) (hh : h < 2 ^ 32) :
    LoadStream heap (ascii "P6\n#" ++ text ++ ascii "\n" ++ printUInt w ++ ascii " " ++
        printUInt h ++ ascii "\n255\n" ++ d) =
      if (fread (w * h % 2 ^ 32 * 3) 1 (10 :: d)).count = 1 then
        ⟨LoadResult.image ⟨w, h, chunk3 (fread (w * h % 2 ^ 32 * 3) 1 (10 :: d)).bytes,
            PPM_MODE_P6⟩,
          [Alloc.imageRecord, Alloc.pixelBuffer (w * h % 2 ^ 32 * 3)]⟩
      else ⟨LoadResult.abort, [Alloc.imageRecord, Alloc.pixelBuffer (w * h % 2 ^ 32 * 3)]⟩ := by
  have e1 : ascii "P6\n#" = [80, 54, 10, 35] := by decide
  have e2 : ascii "\n" = [10] := by decide
  have e3 : ascii " " = [32] := by decide
  have e4 : ascii "\n255\n" = [10, 50, 53, 53, 10] := by decide
  have hin : ascii "P6\n#" ++ text ++ ascii "\n" ++ printUInt w ++ ascii " " ++ printUInt h ++
      ascii "\n255\n" ++ d =
      80 :: 54 :: ((10 :: 35 :: (text ++ [10])) ++ (printUInt w ++ 32 :: (printUInt h ++
        10 :: 50 :: 53 :: 53 :: 10 :: d))) := by
    simp [e1, e2, e3, e4]
  rw [hin, LoadStream_binary heap 80 w h _ d (by decide) (comment_gap text htext hlen w) hw hh]

/-- C6 at a failing input: the header `"P6\n#c\n65536 65536\n255\n"` followed by
all `65536 * 65536 * 3` pixel bytes is not decoded to an image.  The comment
is skipped and both dimensions are read, but their 32-bit product is zero: a
pixel buffer of 0 bytes is requested, `fread` of a block of size zero returns
zero, and the assertion on its result ends the run. -/
theorem LoadImage_comment_header_size_wraps :
    LoadImage
        (FileSystem.single [97]
          (ascii "P6\n#c\n65536 65536\n255\n" ++ List.replicate (65536 * 65536 * 3) 0))
        (fun _ => ⟨0, 0, 0⟩) (some [97]) =
      ⟨LoadResult.abort, [Alloc.imageRecord, Alloc.pixelBuffer 0]⟩ := by
  have hin : ascii "P6\n#c\n65536 65536\n255\n" =
      ascii "P6\n#" ++ ascii "c" ++ ascii "\n" ++ printUInt 65536 ++ ascii " " ++
        printUInt 65536 ++ ascii "\n255\n" := by decide
  have hz : 65536 * 65536 % 2 ^ 32 * 3 = 0 := by decide
  rw [LoadImage_of_file _ _ [97] _ (by decide) (FileSystem.single_content _ _), hin,
    LoadStream_comment_header _ (ascii "c") _ 65536 65536 (by decide) (by decide) (by decide)
      (by decide),
    hz, fread_zero, if_neg (by decide)]

/-- A comment line in the header, for sizes whose 32-bit product does not wrap:
for every `w, h ≥ 1` with `w * h < 2 ^ 32` and every comment text without line
feed of at most 1020 bytes (the line and its line feed then fit one call of
`fgets`), `LoadImage` on `"P6\n#" ++ text ++ "\n<w> <h>\n255\n"` followed by
`w * h * 3` raw bytes returns an image with `Width = w` and `Heigth = h`. -/
theorem LoadImage_comment_header (fs : FileSystem) (heap : Nat → RgbColor)
    (name text d : List Nat) (w h : Nat) (hname : name ≠ [])
    (hfile : fs.content name = some (ascii "P6\n#" ++ text ++ ascii "\n" ++ printUInt w ++
      ascii " " ++ printUInt h ++ ascii "\n255\n" ++ d))
    (htext : 10 ∉ text) (hlen : text.length ≤ 1020) (hw : 1 ≤ w) (hh : 1 ≤ h)
    (hsize : w * h < 2 ^ 32) (hd : d.length = w * h * 3) :
    ∃ pImage, (LoadImage fs heap (some name)).result = LoadResult.image pImage ∧
      pImage.Width = w ∧ pImage.Heigth = h := by
  have hwlt : w < 2 ^ 32 := lt_of_le_of_lt (Nat.le_mul_of_pos_right w hh) hsize
  have hhlt : h < 2 ^ 32 := lt_of_le_of_lt (Nat.le_mul_of_pos_left h hw) hsize
  rw [LoadImage_of_file fs heap name _ hname hfile,
    LoadStream_comment_header heap text d w h htext hlen hwlt hhlt, Nat.mod_eq_of_lt hsize]
  have hpos : 0 < w * h := Nat.mul_pos hw hh
  rw [fread_one (w * h * 3) (10 :: d) (by omega) (by simp [hd])]
  exact ⟨⟨w, h, chunk3 ((10 :: d).take (w * h * 3)), PPM_MODE_P6⟩, by simp, rfl, rfl⟩

theorem LoadImage_comment_header_example :
    ∃ pImage, (LoadImage
        (FileSystem.single [97]
          (ascii "P6\n#comment\n2 2\n255\n" ++ [1, 2, 3, 4, 5, 6, 7, 8, 9, 10, 11, 12]))
        (fun _ => ⟨0, 0, 0⟩) (some [97])).result = LoadResult.image pImage ∧
      pImage.Width = 2 ∧ pImage.Heigth = 2 :=
  LoadImage_comment_header
    (FileSystem.single [97]
      (ascii "P6\n#comment\n2 2\n255\n" ++ [1, 2, 3, 4, 5, 6, 7, 8, 9, 10, 11, 12]))
    (fun _ => ⟨0, 0, 0⟩) [97] (ascii "comment") [1, 2, 3, 4, 5, 6, 7, 8, 9, 10, 11, 12] 2 2
    (by decide) (by decide) (by decide) (by decide) (by decide) (by decide) (by decide)
    (by decide)

/-! ## The byte after the max-colour field -/

/-- C1 at a failing input: the 1 x 1 image `"P6\n1 1\n255\n"` with pixel bytes
`1, 2, 3` is re-encoded with pixel bytes `10, 1, 2`: the decoder takes the line
feed that ends the header as the first pixel byte and never reads the last
byte, so the pixel bytes are not those of the input. -/
theorem reencodeP6_changes_pixel_bytes :
    reencodeP6 (FileSystem.single [105] (ascii "P6\n1 1\n255\n" ++ [1, 2, 3]))
        (fun _ => ⟨0, 0, 0⟩) [105] [111] = some (ascii "P6\n1 1\n255\n" ++ [10, 1, 2]) ∧
      reencodeP6 (FileSystem.single [105] (ascii "P6\n1 1\n255\n" ++ [1, 2, 3]))
        (fun _ => ⟨0, 0, 0⟩) [105] [111] ≠ some (ascii "P6\n1 1\n255\n" ++ [1, 2, 3]) := by
  decide

/-- C2 at a failing input: for `"P6\n2 1\n255\n"` followed by the bytes
`1, 2, 3, 4, 5, 6` the decoder returns a P6 image whose pixels are
`(10, 1, 2)` and `(3, 4, 5)`, not `(1, 2, 3)` and `(4, 5, 6)`: the pixel at
index `i` holds the bytes `3i - 1, 3i, 3i + 1` of the pixel section, the first
byte being the line feed that ends the header. -/
theorem LoadImage_binary_pixels_shifted :
    LoadImage (FileSystem.single [105] (ascii "P6\n2 1\n255\n" ++ [1, 2, 3, 4, 5, 6]))
        (fun _ => ⟨0, 0, 0⟩) (some [105]) =
      ⟨LoadResult.image ⟨2, 1, [⟨10, 1, 2⟩, ⟨3, 4, 5⟩], PPM_MODE_P6⟩,
        [Alloc.imageRecord, Alloc.pixelBuffer 6]⟩ := by
  decide

/-! ## The layout of the specification and the bytes the code handles -/

theorem ascii_append (s t : String) : ascii (s ++ t) = ascii s ++ ascii t := by
  simp [ascii, String.toList]

theorem layoutPixel_eq_emitPixel (mode : PPM_MODE) (c : RgbColor) :
    layoutPixel mode c = emitPixel mode c := by
  have e1 : ascii " " = [32] := by decide
  have e2 : ascii "\n" = [10] := by decide
  cases mode <;>
    simp [layoutPixel, emitPixel, ascii_append, ← printUInt_eq_repr, e1, e2]

theorem layoutHeader_eq_writeHeader (mode : PPM_MODE) (w h : Nat) :
    layoutHeader mode w h = writeHeader mode w h := by
  have e1 : ascii " " = [32] := by decide
  have e2 : ascii "\n255\n" = [10, 50, 53, 53, 10] := by decide
  have p1 : ascii "P1\n" = [80, 49, 10] := by decide
  have p3 : ascii "P3\n" = [80, 51, 10] := by decide
  have p6 : ascii "P6\n" = [80, 54, 10] := by decide
  cases mode <;>
    simp [layoutHeader, writeHeader, szSignature, ascii_append, ← printUInt_eq_repr, e1, e2,
      p1, p3, p6]

theorem layoutPixels_append (mode : PPM_MODE) (cs ds : List RgbColor) :
    layoutPixels mode (cs ++ ds) = layoutPixels mode cs ++ layoutPixels mode ds := by
  induction cs with
  | nil => rfl
  | cons c cs ih => simp [layoutPixels, ih]

/-- A text pixel section is empty or starts with a digit. -/
theorem layoutPixels_head (cs : List RgbColor) :
    ∀ x ∈ (layoutPixels PPM_MODE_P3 cs).head?, isdigit x = true := by
  cases cs with
  | nil => simp [layoutPixels]
  | cons c cs =>
    obtain ⟨d, ds, hp⟩ := List.exists_cons_of_ne_nil (printUInt_ne_nil c.R)
    have hd : isdigit d = true := printUInt_isdigit c.R d (by rw [hp]; simp)
    intro x hx
    simp [layoutPixels, layoutPixel_eq_emitPixel, emitPixel, hp] at hx
    rw [← hx]; exact hd

theorem skipSpace_layoutPixels (cs : List RgbColor) :
    skipSpace (layoutPixels PPM_MODE_P3 cs) = layoutPixels PPM_MODE_P3 cs := by
  have h := layoutPixels_head cs
  cases hl : layoutPixels PPM_MODE_P3 cs with
  | nil => rfl
  | cons x xs =>
    rw [hl] at h
    exact skipSpace_of_not_space x xs (isdigit_not_space x (h x (by simp)))

/-! ## ASCII decoding -/

/-- One line `"R G B\n"` is read as three values and the line is consumed. -/
theorem fscanf_hhu3_line (r g b : Nat) (c : RgbColor) (hc : c.valid) (cs : List RgbColor) :
    fscanf_hhu3 r g b (layoutPixels PPM_MODE_P3 (c :: cs)) =
      ⟨3, c.R, c.G, c.B, layoutPixels PPM_MODE_P3 cs⟩ := by
  obtain ⟨hr, hg, hb⟩ := hc
  have h1 := scanUnsigned_printUInt 8 c.R
    (32 :: (printUInt c.G ++ 32 :: (printUInt c.B ++ 10 :: layoutPixels PPM_MODE_P3 cs)))
    (by simp [isdigit]) (lt_trans hr (by decide))
  have h2 := scanUnsigned_printUInt 8 c.G
    (32 :: (printUInt c.B ++ 10 :: layoutPixels PPM_MODE_P3 cs)) (by simp [isdigit])
    (lt_trans hg (by decide))
  have h3 := scanUnsigned_printUInt 8 c.B (10 :: layoutPixels PPM_MODE_P3 cs)
    (by simp [isdigit]) (lt_trans hb (by decide))
  rw [Nat.mod_eq_of_lt (by simpa using hr)] at h1
  rw [Nat.mod_eq_of_lt (by simpa using hg)] at h2
  rw [Nat.mod_eq_of_lt (by simpa using hb)] at h3
  have hline : layoutPixels PPM_MODE_P3 (c :: cs) =
      printUInt c.R ++ 32 :: (printUInt c.G ++ 32 :: (printUInt c.B ++
        10 :: layoutPixels PPM_MODE_P3 cs)) := by
    simp [layoutPixels, layoutPixel_eq_emitPixel, emitPixel]
  rw [hline]
  unfold fscanf_hhu3
  rw [h1]
  simp only []
  rw [scanUnsigned_space 8 32 _ (by decide), h2]
  simp only []
  rw [scanUnsigned_space 8 32 _ (by decide), h3]
  simp only []
  rw [skipSpace_of_space 10 _ (by decide), skipSpace_layoutPixels]

theorem scanPixel_space (w y x c : Nat) (s : List Nat) (buf : List RgbColor) (r g b : Nat)
    (stray : List (Nat × RgbColor)) (hc : isspace c = true) :
    scanPixel w y x ⟨c :: s, buf, r, g, b, stray⟩ = scanPixel w y x ⟨s, buf, r, g, b, stray⟩ := by
  have : fscanf_hhu3 r g b (c :: s) = fscanf_hhu3 r g b s := by
    unfold fscanf_hhu3
    rw [scanUnsigned_space 8 c s hc]
  simp only [scanPixel, this]

theorem scanRows_space (w h c : Nat) (s : List Nat) (buf : List RgbColor) (r g b : Nat)
    (stray : List (Nat × RgbColor)) (hc : isspace c = true) (hw : 1 ≤ w) (hh : 1 ≤ h) :
    scanRows w h 0 ⟨c :: s, buf, r, g, b, stray⟩ = scanRows w h 0 ⟨s, buf, r, g, b, stray⟩ := by
  obtain ⟨w, rfl⟩ : ∃ j, w = j + 1 := ⟨w - 1, by omega⟩
  obtain ⟨h, rfl⟩ : ∃ j, h = j + 1 := ⟨h - 1, by omega⟩
  simp only [scanRows, scanRow, scanPixel_space _ _ _ c s buf r g b stray hc]

/-- A row of the ASCII loop stores the colours of its lines in consecutive cells. -/
theorem scanRow_lines (w y : Nat) :
    ∀ (n x : Nat) (cs rest : List RgbColor) (pre old post : List RgbColor) (r g b : Nat)
      (stray : List (Nat × RgbColor)),
      cs.length = n → old.length = n → pre.length = y * w + x → (∀ c ∈ cs, c.valid) →
      (pre ++ old ++ post).length < 2 ^ 64 →
      ∃ r1 g1 b1, scanRow w y n x ⟨layoutPixels PPM_MODE_P3 (cs ++ rest), pre ++ old ++ post,
          r, g, b, stray⟩ =
        ⟨layoutPixels PPM_MODE_P3 rest, pre ++ cs ++ post, r1, g1, b1, stray⟩ := by
  intro n
  induction n with
  | zero =>
    intro x cs rest pre old post r g b stray hcs hold _ _ _
    have h1 : cs = [] := List.length_eq_zero.mp hcs
    have h2 : old = [] := List.length_eq_zero.mp hold
    subst h1 h2
    exact ⟨r, g, b, rfl⟩
  | succ n ih =>
    intro x cs rest pre old post r g b stray hcs hold hpre hvalid hlen
    obtain ⟨c, cs, rfl⟩ := List.exists_cons_of_length_eq_add_one hcs
    obtain ⟨o, old, rfl⟩ := List.exists_cons_of_length_eq_add_one hold
    have hidx : (y * w + x) % 2 ^ 64 = pre.length := by
      rw [← hpre]
      apply Nat.mod_eq_of_lt
      simp only [List.length_append, List.length_cons] at hlen
      omega
    have hset : (pre ++ o :: old ++ post).set pre.length ⟨c.R, c.G, c.B⟩ =
        (pre ++ [c]) ++ old ++ post := by
      simp [List.set_append]
    have hlt : pre.length < (pre ++ o :: old ++ post).length := by
      simp only [List.length_append, List.length_cons]; omega
    obtain ⟨r1, g1, b1, hrec⟩ := ih (x + 1) cs rest (pre ++ [c]) old post c.R c.G c.B stray
      (by simpa using hcs) (by simpa using hold)
      (by simp only [List.length_append, List.length_singleton]; omega)
      (fun c' hc' => hvalid c' (List.mem_cons_of_mem _ hc'))
      (by simp only [List.length_append, List.length_cons, List.length_singleton,
            List.length_nil] at hlen ⊢; omega)
    refine ⟨r1, g1, b1, ?_⟩
    simp only [scanRow, scanPixel, List.cons_append,
      fscanf_hhu3_line r g b c (hvalid c (by simp)) (cs ++ rest), if_true, hidx]
    rw [if_pos hlt, hset, hrec]
    simp

/-- The ASCII loop stores the colours of the lines in consecutive cells, row after row. -/
theorem scanRows_lines (w : Nat) :
    ∀ (n y : Nat) (cs rest : List RgbColor) (pre old post : List RgbColor) (r g b : Nat)
      (stray : List (Nat × RgbColor)),
      cs.length = n * w → old.length = n * w → pre.length = y * w → (∀ c ∈ cs, c.valid) →
      (pre ++ old ++ post).length < 2 ^ 64 →
      ∃ r1 g1 b1, scanRows w n y ⟨layoutPixels PPM_MODE_P3 (cs ++ rest), pre ++ old ++ post,
          r, g, b, stray⟩ =
        ⟨layoutPixels PPM_MODE_P3 rest, pre ++ cs ++ post, r1, g1, b1, stray⟩ := by
  intro n
  induction n with
  | zero =>
    intro y cs rest pre old post r g b stray hcs hold _ _ _
    have h1 : cs = [] := List.length_eq_zero.mp (by simpa using hcs)
    have h2 : old = [] := List.length_eq_zero.mp (by simpa using hold)
    subst h1 h2
    exact ⟨r, g, b, rfl⟩
  | succ n ih =>
    intro y cs rest pre old post r g b stray hcs hold hpre hvalid hlen
    have hsplit : ∀ l : List RgbColor, l.length = (n + 1) * w →
        ∃ l1 l2, l = l1 ++ l2 ∧ l1.length = w ∧ l2.length = n * w := by
      intro l hl
      refine ⟨l.take w, l.drop w, (List.take_append_drop w l).symm, ?_, ?_⟩
      · rw [List.length_take, hl, Nat.succ_mul]; omega
      · rw [List.length_drop, hl, Nat.succ_mul]; omega
    obtain ⟨cs1, cs2, rfl, hc1, hc2⟩ := hsplit cs hcs
    obtain ⟨old1, old2, rfl, ho1, ho2⟩ := hsplit old hold
    obtain ⟨r1, g1, b1, hrow⟩ := scanRow_lines w y w 0 cs1 (cs2 ++ rest) pre old1
      (old2 ++ post) r g b stray hc1 ho1 (by omega)
      (fun c hc => hvalid c (List.mem_append_left _ hc))
      (by simpa [List.append_assoc] using hlen)
    obtain ⟨r2, g2, b2, hrec⟩ := ih (y + 1) cs2 rest (pre ++ cs1) old2 post r1 g1 b1 stray
      hc2 ho2
      (by rw [List.length_append, hpre, hc1, Nat.succ_mul])
      (fun c hc => hvalid c (List.mem_append_right _ hc))
      (by
        simp only [List.length_append] at hlen ⊢
        omega)
    refine ⟨r2, g2, b2, ?_⟩
    simp only [List.append_assoc] at hrow hrec ⊢
    simp only [scanRows, hrow, hrec]

theorem layoutHeader_P3 (w h : Nat) (tail : List Nat) :
    layoutHeader PPM_MODE_P3 w h ++ tail =
      80 :: 51 :: ([10] ++ (printUInt w ++ 32 :: (printUInt h ++
        10 :: 50 :: 53 :: 53 :: 10 :: tail))) := by
  simp [layoutHeader_eq_writeHeader, writeHeader, szSignature]

/-- The ASCII branch after the header `"P3\n<w> <h>\n255\n"`. -/
theorem LoadStream_ascii (heap : Nat → RgbColor) (w h : Nat) (tail : List Nat)
    (hw : w < 2 ^ 32) (hh : h < 2 ^ 32) :
    LoadStream heap (layoutHeader PPM_MODE_P3 w h ++ tail) =
      ⟨asciiResult w h
          (scanRows w h 0 ⟨10 :: tail, (List.range (w * h % 2 ^ 32)).map heap, 0, 0, 0, []⟩),
        [Alloc.imageRecord, Alloc.pixelBuffer (w * h % 2 ^ 32 * 3)]⟩ := by
  obtain ⟨h1, h2, h3, h4⟩ := header_fields 80 51 w h [10] tail (by decide) (by decide)
    (plain_gap w) hw hh
  rw [layoutHeader_P3, LoadStream_of_header heap _ _ _ _ _ 80 51 w h 255 h1 h2 h3 h4]
  have hsz : w * h % 2 ^ 32 * 3 % 2 ^ 64 = w * h % 2 ^ 32 * 3 := by
    have : w * h % 2 ^ 32 < 2 ^ 32 := Nat.mod_lt _ (by decide)
    omega
  rw [hsz, if_pos rfl]

/-- At the end of the stream a read assigns nothing and the loop body changes nothing. -/
theorem scanPixel_eof (w y x : Nat) (st : PixelScan) (hst : st.hFile = []) :
    scanPixel w y x st = st := by
  obtain ⟨s, buf, r, g, b, stray⟩ := st
  simp only at hst
  subst hst
  simp [scanPixel, fscanf_hhu3, scanUnsigned, skipSpace, skipSign, takeDigits]

theorem scanRow_eof (w y : Nat) (n x : Nat) (st : PixelScan) (hst : st.hFile = []) :
    scanRow w y n x st = st := by
  induction n generalizing x with
  | zero => rfl
  | succ n ih => rw [scanRow, scanPixel_eof w y x st hst, ih]

theorem scanRows_eof (w : Nat) (n y : Nat) (st : PixelScan) (hst : st.hFile = []) :
    scanRows w n y st = st := by
  induction n generalizing y with
  | zero => rfl
  | succ n ih => rw [scanRows, scanRow_eof w y w 0 st hst, ih]

/-- When the first read of the loop exhausts the stream, the whole loop does
what its first iteration does. -/
theorem scanRows_first_only (w h : Nat) (st : PixelScan) (hw : 1 ≤ w) (hh : 1 ≤ h)
    (hend : (scanPixel w 0 0 st).hFile = []) : scanRows w h 0 st = scanPixel w 0 0 st := by
  obtain ⟨w, rfl⟩ : ∃ j, w = j + 1 := ⟨w - 1, by omega⟩
  obtain ⟨h, rfl⟩ : ∃ j, h = j + 1 := ⟨h - 1, by omega⟩
  rw [scanRows, scanRow, scanRow_eof _ _ _ _ _ hend, scanRows_eof _ _ _ _ hend]

/-- A row of the ASCII loop when the pixel buffer has no cell: the colour of
every line is stored outside the buffer, at the index of its pixel. -/
theorem scanRow_lines_stray (w y : Nat) :
    ∀ (n x : Nat) (cs rest : List RgbColor) (r g b : Nat) (stray : List (Nat × RgbColor)),
      cs.length = n → (∀ c ∈ cs, c.valid) → y * w + x + n ≤ 2 ^ 64 →
      ∃ r1 g1 b1, scanRow w y n x ⟨layoutPixels PPM_MODE_P3 (cs ++ rest), [], r, g, b, stray⟩ =
        ⟨layoutPixels PPM_MODE_P3 rest, [], r1, g1, b1,
          stray ++ cs.enumFrom (y * w + x)⟩ := by
  intro n
  induction n with
  | zero =>
    intro x cs rest r g b stray hcs _ _
    have h1 : cs = [] := List.length_eq_zero.mp hcs
    subst h1
    exact ⟨r, g, b, by simp [scanRow]⟩
  | succ n ih =>
    intro x cs rest r g b stray hcs hvalid hidx
    obtain ⟨c, cs, rfl⟩ := List.exists_cons_of_length_eq_add_one hcs
    have hmod : (y * w + x) % 2 ^ 64 = y * w + x := Nat.mod_eq_of_lt (by omega)
    obtain ⟨r1, g1, b1, hrec⟩ := ih (x + 1) cs rest c.R c.G c.B
      (stray ++ [(y * w + x, c)]) (by simpa using hcs)
      (fun c' hc' => hvalid c' (List.mem_cons_of_mem _ hc')) (by omega)
    refine ⟨r1, g1, b1, ?_⟩
    have hstep : scanPixel w y x ⟨layoutPixels PPM_MODE_P3 (c :: cs ++ rest), [], r, g, b,
        stray⟩ =
        ⟨layoutPixels PPM_MODE_P3 (cs ++ rest), [], c.R, c.G, c.B,
          stray ++ [(y * w + x, c)]⟩ := by
      simp only [scanPixel, List.cons_append,
        fscanf_hhu3_line r g b c (hvalid c (by simp)) (cs ++ rest), if_true, hmod,
        List.length_nil, Nat.not_lt_zero, if_false]
    rw [scanRow, hstep, hrec, List.enumFrom_cons, List.append_assoc, List.singleton_append,
      Nat.add_assoc]

/-- The ASCII loop when the pixel buffer has no cell: every colour is stored
outside the buffer, row after row. -/
theorem scanRows_lines_stray (w : Nat) :
    ∀ (n y : Nat) (cs rest : List RgbColor) (r g b : Nat) (stray : List (Nat × RgbColor)),
      cs.length = n * w → (∀ c ∈ cs, c.valid) → (y + n) * w ≤ 2 ^ 64 →
      ∃ r1 g1 b1, scanRows w n y ⟨layoutPixels PPM_MODE_P3 (cs ++ rest), [], r, g, b, stray⟩ =
        ⟨layoutPixels PPM_MODE_P3 rest, [], r1, g1, b1, stray ++ cs.enumFrom (y * w)⟩ := by
  intro n
  induction n with
  | zero =>
    intro y cs rest r g b stray hcs _ _
    have h1 : cs = [] := List.length_eq_zero.mp (by simpa using hcs)
    subst h1
    exact ⟨r, g, b, by simp [scanRows]⟩
  | succ n ih =>
    intro y cs rest r g b stray hcs hvalid hidx
    have hmul : (y + (n + 1)) * w = y * w + n * w + w := by ring
    have hmul2 : (y + 1 + n) * w = y * w + n * w + w := by ring
    have hmul3 : (y + 1) * w = y * w + w := by ring
    have hl : cs.length = w + n * w := by rw [hcs, Nat.succ_mul]; omega
    obtain ⟨cs1, cs2, rfl, hc1, hc2⟩ : ∃ l1 l2, cs = l1 ++ l2 ∧ l1.length = w ∧
        l2.length = n * w :=
      ⟨cs.take w, cs.drop w, (List.take_append_drop w cs).symm,
        by rw [List.length_take, hl]; omega, by rw [List.length_drop, hl]; omega⟩
    obtain ⟨r1, g1, b1, hrow⟩ := scanRow_lines_stray w y w 0 cs1 (cs2 ++ rest) r g b stray hc1
      (fun c hc => hvalid c (List.mem_append_left _ hc)) (by omega)
    obtain ⟨r2, g2, b2, hrec⟩ := ih (y + 1) cs2 rest r1 g1 b1
      (stray ++ cs1.enumFrom (y * w + 0)) hc2
      (fun c hc => hvalid c (List.mem_append_right _ hc)) (by omega)
    refine ⟨r2, g2, b2, ?_⟩
    simp only [List.append_assoc] at hrow ⊢
    rw [scanRows, hrow, hrec, List.enumFrom_append, hc1, hmul3, Nat.add_zero,
      List.append_assoc]

/-- When the 32-bit product of the dimensions is zero the pixel buffer has no
cell: the image record is returned, and the colour of every line has been
stored outside the buffer. -/
theorem LoadStream_ascii_no_cell (heap : Nat → RgbColor) (w h : Nat) (cs : List RgbColor)
    (hw : 1 ≤ w) (hh : 1 ≤ h) (hwlt : w < 2 ^ 32) (hhlt : h < 2 ^ 32)
    (hz : w * h % 2 ^ 32 = 0) (hlen : cs.length = w * h) (hvalid : ∀ c ∈ cs, c.valid) :
    LoadStream heap (layoutHeader PPM_MODE_P3 w h ++ layoutPixels PPM_MODE_P3 cs) =
      ⟨LoadResult.overflow ⟨w, h, [], PPM_MODE_P3⟩ (cs.enumFrom 0),
        [Alloc.imageRecord, Alloc.pixelBuffer 0]⟩ := by
  have hne : cs ≠ [] := by
    intro hnil
    rw [hnil] at hlen
    have : 0 < w * h := Nat.mul_pos hw hh
    simp at hlen
    omega
  have hbound : (0 + h) * w ≤ 2 ^ 64 := by
    have := Nat.mul_le_mul (Nat.le_of_lt hhlt) (Nat.le_of_lt hwlt)
    rw [Nat.zero_add]
    exact le_trans this (by decide)
  rw [LoadStream_ascii heap w h _ hwlt hhlt, hz,
    scanRows_space w h 10 _ _ 0 0 0 [] (by decide) hw hh]
  obtain ⟨r1, g1, b1, hrows⟩ := scanRows_lines_stray w h 0 cs [] 0 0 0 []
    (by rw [hlen, Nat.mul_comm]) hvalid hbound
  simp only [List.append_nil, List.nil_append, Nat.zero_mul] at hrows
  have hbuf : (List.range 0).map heap = [] := rfl
  rw [hbuf, hrows, asciiResult]
  simp only []
  rw [if_neg (fun hnil => hne (List.enumFrom_eq_nil.mp hnil))]

/-- C3 at a failing input: for `w = h = 65536` and `65536 * 65536` lines
`"0 0 0\n"` the decoder requests a pixel buffer of 0 bytes, because the 32-bit
product of the dimensions is zero, and stores the colours outside it, from the
first one (index 0) on; the image record has width 65536, height 65536 and a
pixel buffer without any cell, not the `65536 * 65536` colours of the input. -/
theorem LoadImage_ascii_size_wraps :
    LoadImage
        (FileSystem.single [97]
          (ascii "P3\n65536 65536\n255\n" ++
            layoutPixels PPM_MODE_P3 (List.replicate (65536 * 65536) (RgbColor.mk 0 0 0))))
        (fun _ => ⟨0, 0, 0⟩) (some [97]) =
      ⟨LoadResult.overflow ⟨65536, 65536, [], PPM_MODE_P3⟩
          ((List.replicate (65536 * 65536) (RgbColor.mk 0 0 0)).enumFrom 0),
        [Alloc.imageRecord, Alloc.pixelBuffer 0]⟩ := by
  have hin : ascii "P3\n65536 65536\n255\n" = layoutHeader PPM_MODE_P3 65536 65536 := by
    decide
  rw [LoadImage_of_file _ _ [97] _ (by decide) (FileSystem.single_content _ _), hin]
  exact LoadStream_ascii_no_cell _ 65536 65536 _ (by decide) (by decide) (by decide)
    (by decide) (by decide) (List.length_replicate _ _)
    (fun c hc => by rw [List.eq_of_mem_replicate hc]; decide)

/-- The ASCII decoder on well-formed input, for sizes whose 32-bit product does
not wrap: for every `w, h ≥ 1` with `w * h < 2 ^ 32` and every list of `w * h`
colours with channels in `0..255`, `LoadImage` on `"P3\n<w> <h>\n255\n"`
followed by one line `"R G B\n"` per colour returns an image with `Width = w`,
`Heigth = h`, mode P3 and exactly that list as pixel sequence. -/
theorem LoadImage_ascii_decode (fs : FileSystem) (heap : Nat → RgbColor) (name : List Nat)
    (w h : Nat) (cs : List RgbColor) (hname : name ≠ [])
    (hfile : fs.content name =
      some (layoutHeader PPM_MODE_P3 w h ++ layoutPixels PPM_MODE_P3 cs))
    (hw : 1 ≤ w) (hh : 1 ≤ h) (hsize : w * h < 2 ^ 32) (hlen : cs.length = w * h)
    (hvalid : ∀ c ∈ cs, c.valid) :
    (LoadImage fs heap (some name)).result = LoadResult.image ⟨w, h, cs, PPM_MODE_P3⟩ := by
  have hwlt : w < 2 ^ 32 := lt_of_le_of_lt (Nat.le_mul_of_pos_right w hh) hsize
  have hhlt : h < 2 ^ 32 := lt_of_le_of_lt (Nat.le_mul_of_pos_left h hw) hsize
  rw [LoadImage_of_file fs heap name _ hname hfile, LoadStream_ascii heap w h _ hwlt hhlt,
    Nat.mod_eq_of_lt hsize, scanRows_space w h 10 _ _ 0 0 0 [] (by decide) hw hh]
  obtain ⟨r1, g1, b1, hrows⟩ := scanRows_lines w h 0 cs [] []
    ((List.range (w * h)).map heap) [] 0 0 0 [] (by rw [hlen, Nat.mul_comm])
    (by simp [Nat.mul_comm]) (by simp) hvalid
    (by
      simp only [List.nil_append, List.append_nil, List.length_map, List.length_range]
      exact lt_trans hsize (by decide))
  simp only [List.nil_append, List.append_nil] at hrows
  rw [hrows]
  rfl

theorem LoadImage_ascii_decode_example :
    (LoadImage (FileSystem.single [97] (ascii "P3\n2 1\n255\n255 0 0\n0 255 0\n"))
        (fun _ => ⟨7, 7, 7⟩) (some [97])).result =
      LoadResult.image ⟨2, 1, [⟨255, 0, 0⟩, ⟨0, 255, 0⟩], PPM_MODE_P3⟩ :=
  LoadImage_ascii_decode (FileSystem.single [97] (ascii "P3\n2 1\n255\n255 0 0\n0 255 0\n"))
    (fun _ => ⟨7, 7, 7⟩) [97] 2 1 [⟨255, 0, 0⟩, ⟨0, 255, 0⟩] (by decide) (by decide)
    (by decide) (by decide) (by decide) (by decide) (by decide)

/-! ## Encoding -/

theorem GetPixel_of_split (pImage : PpmImage) (x y : Nat) (pre post : List RgbColor)
    (c : RgbColor) (hpix : pImage.Pixels = pre ++ c :: post)
    (hpre : pre.length = y * pImage.Width + x) (hx : x < pImage.Width)
    (hy : y < pImage.Heigth) (hidx : y * pImage.Width + x < 2 ^ 32) :
    GetPixel x y pImage = some c := by
  unfold GetPixel
  rw [if_pos ⟨hx, hy⟩, Nat.mod_eq_of_lt hidx, ← hpre, hpix, List.get?_eq_getElem?,
    List.getElem?_append_right (le_refl _), Nat.sub_self, List.getElem?_cons_zero]

/-- A row of the encoder writes consecutive pixels, transformed, while the
32-bit index does not wrap. -/
theorem writeRow_pixels (pImage : PpmImage) (mode : PPM_MODE) (t : RgbColor → RgbColor)
    (y : Nat) (hy : y < pImage.Heigth) :
    ∀ (n x : Nat) (out : List Nat) (pre cur post : List RgbColor),
      pImage.Pixels = pre ++ cur ++ post → pre.length = y * pImage.Width + x →
      cur.length = n → x + n ≤ pImage.Width → y * pImage.Width + x + n ≤ 2 ^ 32 →
      writeRow pImage mode t y n x out = some (out ++ layoutPixels mode (cur.map t)) := by
  intro n
  induction n with
  | zero =>
    intro x out pre cur post _ _ hcur _ _
    have : cur = [] := List.length_eq_zero.mp hcur
    subst this
    simp [writeRow, layoutPixels]
  | succ n ih =>
    intro x out pre cur post hpix hpre hcur hx hidx
    obtain ⟨c, cur, rfl⟩ := List.exists_cons_of_length_eq_add_one hcur
    have hget : GetPixel x y pImage = some c :=
      GetPixel_of_split pImage x y pre (cur ++ post) c (by simpa using hpix) hpre
        (by omega) hy (by omega)
    have hrec := ih (x + 1) (out ++ emitPixel mode (t c)) (pre ++ [c]) cur post
      (by simpa using hpix) (by simp only [List.length_append, List.length_singleton]; omega)
      (by simpa using hcur) (by omega) (by omega)
    simp only [writeRow, hget, hrec, List.map_cons, layoutPixels, layoutPixel_eq_emitPixel,
      List.append_assoc]

/-- The encoder writes the pixels row after row, transformed, while the 32-bit
index does not wrap. -/
theorem writeRows_pixels (pImage : PpmImage) (mode : PPM_MODE) (t : RgbColor → RgbColor) :
    ∀ (n y : Nat) (out : List Nat) (pre cur post : List RgbColor),
      pImage.Pixels = pre ++ cur ++ post → pre.length = y * pImage.Width →
      cur.length = n * pImage.Width → y + n ≤ pImage.Heigth →
      y * pImage.Width + n * pImage.Width ≤ 2 ^ 32 →
      writeRows pImage mode t n y out = some (out ++ layoutPixels mode (cur.map t)) := by
  intro n
  induction n with
  | zero =>
    intro y out pre cur post _ _ hcur _ _
    have : cur = [] := List.length_eq_zero.mp (by simpa using hcur)
    subst this
    simp [writeRows, layoutPixels]
  | succ n ih =>
    intro y out pre cur post hpix hpre hcur hy hidx
    have hl : cur.length = pImage.Width + n * pImage.Width := by rw [hcur, Nat.succ_mul]; omega
    have hs : y * pImage.Width + (pImage.Width + n * pImage.Width) ≤ 2 ^ 32 := by
      rw [Nat.succ_mul] at hidx; omega
    have hc : cur = cur.take pImage.Width ++ cur.drop pImage.Width :=
      (List.take_append_drop _ _).symm
    have hrow := writeRow_pixels pImage mode t y (by omega) pImage.Width 0 out pre
      (cur.take pImage.Width) (cur.drop pImage.Width ++ post)
      (by rw [hpix]; conv_lhs => rw [hc]
          simp only [List.append_assoc]) (by omega)
      (by rw [List.length_take, hl]; omega) (by omega) (by omega)
    have hrec := ih (y + 1) (out ++ layoutPixels mode ((cur.take pImage.Width).map t))
      (pre ++ cur.take pImage.Width) (cur.drop pImage.Width) post
      (by rw [hpix]; conv_lhs => rw [hc]
          simp only [List.append_assoc])
      (by rw [List.length_append, hpre, List.length_take, hl, Nat.succ_mul]; omega)
      (by rw [List.length_drop, hl]; omega) (by omega)
      (by rw [Nat.succ_mul]; omega)
    simp only [writeRows, hrow, hrec, List.append_assoc, ← layoutPixels_append, ← List.map_append,
      List.take_append_drop]

/-- The bytes written for an image whose buffer holds `Width * Heigth` pixels,
at most `2 ^ 32` of them, are the reference layout. -/
theorem WriteStream_reference (pImage : PpmImage) (mode : PPM_MODE) (t : RgbColor → RgbColor)
    (hlen : pImage.Pixels.length = pImage.Width * pImage.Heigth)
    (hsize : pImage.Width * pImage.Heigth ≤ 2 ^ 32) :
    WriteStream pImage mode t = some (referenceLayout pImage mode t) := by
  have := writeRows_pixels pImage mode t pImage.Heigth 0
    (writeHeader mode pImage.Width pImage.Heigth) [] pImage.Pixels [] (by simp) (by simp)
    (by rw [hlen, Nat.mul_comm]) (by omega) (by rw [Nat.mul_comm pImage.Heigth]; omega)
  rw [WriteStream, this, referenceLayout, layoutHeader_eq_writeHeader]

theorem WriteToPpm_of_stream (fs : FileSystem) (name : List Nat) (pImage : PpmImage)
    (mode : PPM_MODE) (t : RgbColor → RgbColor) (bytes : List Nat) (hname : name ≠ [])
    (hopen : fs.writable name = true) (hstream : WriteStream pImage mode t = some bytes) :
    WriteToPpm fs (some name) (some pImage) mode (some t) =
      WriteOutcome.returned (fs.store name bytes) := by
  simp [WriteToPpm, hname, hopen, hstream]

/-- The decoder in terms of the header fields it reads. -/
theorem LoadStream_fields (heap : Nat → RgbColor) (hFile0 : List Nat) :
    LoadStream heap hFile0 =
      if (signatureToken hFile0).getD 1 0 = 51 then
        ⟨asciiResult (headerWidth hFile0) (headerHeigth hFile0)
            (scanRows (headerWidth hFile0) (headerHeigth hFile0) 0
              ⟨pixelStream hFile0,
               (List.range (headerWidth hFile0 * headerHeigth hFile0 % 2 ^ 32)).map heap,
               0, 0, 0, []⟩),
          [Alloc.imageRecord,
           Alloc.pixelBuffer (headerWidth hFile0 * headerHeigth hFile0 % 2 ^ 32 * 3)]⟩
      else if (signatureToken hFile0).getD 1 0 = 54 then
        if (fread (headerWidth hFile0 * headerHeigth hFile0 % 2 ^ 32 * 3) 1
            (pixelStream hFile0)).count = 1 then
          ⟨LoadResult.image ⟨headerWidth hFile0, headerHeigth hFile0,
              chunk3 (fread (headerWidth hFile0 * headerHeigth hFile0 % 2 ^ 32 * 3) 1
                (pixelStream hFile0)).bytes, PPM_MODE_P6⟩,
            [Alloc.imageRecord,
             Alloc.pixelBuffer (headerWidth hFile0 * headerHeigth hFile0 % 2 ^ 32 * 3)]⟩
        else
          ⟨LoadResult.abort,
            [Alloc.imageRecord,
             Alloc.pixelBuffer (headerWidth hFile0 * headerHeigth hFile0 % 2 ^ 32 * 3)]⟩
      else ⟨LoadResult.null, []⟩ := by
  have hsz : headerWidth hFile0 * headerHeigth hFile0 % 2 ^ 32 * 3 % 2 ^ 64 =
      headerWidth hFile0 * headerHeigth hFile0 % 2 ^ 32 * 3 := by
    have : headerWidth hFile0 * headerHeigth hFile0 % 2 ^ 32 < 2 ^ 32 :=
      Nat.mod_lt _ (by decide)
    omega
  rw [← hsz]
  unfold LoadStream signatureToken pixelStream maxColorStream headerHeigth afterWidth headerWidth
  simp only []
  generalize (fgets 3 (ClearComment hFile0)).1.getD 1 0 = digit
  by_cases h3 : digit = 51
  · subst h3; simp
  · by_cases h6 : digit = 54
    · subst h6; simp
    · have e3 : ¬ ((digit : Int) - 48 = 3) := by omega
      have e6 : ¬ ((digit : Int) - 48 = 6) := by omega
      simp [h3, h6, e3, e6]

/-- An image returned by the ASCII branch without any store outside the buffer. -/
theorem asciiResult_image (w h : Nat) (st : PixelScan) (pImage : PpmImage)
    (himg : asciiResult w h st = LoadResult.image pImage) :
    pImage = ⟨w, h, st.ColorBuffer, PPM_MODE_P3⟩ ∧ st.stray = [] := by
  unfold asciiResult at himg
  by_cases hs : st.stray = []
  · rw [if_pos hs] at himg
    exact ⟨(LoadResult.image.inj himg).symm, hs⟩
  · rw [if_neg hs] at himg
    exact LoadResult.noConfusion himg

/-- The image record the ASCII branch returns after stores outside the buffer. -/
theorem asciiResult_overflow (w h : Nat) (st : PixelScan) (pImage : PpmImage)
    (stray : List (Nat × RgbColor))
    (hres : asciiResult w h st = LoadResult.overflow pImage stray) :
    pImage = ⟨w, h, st.ColorBuffer, PPM_MODE_P3⟩ ∧ stray = st.stray ∧ st.stray ≠ [] := by
  unfold asciiResult at hres
  by_cases hs : st.stray = []
  · rw [if_pos hs] at hres
    exact LoadResult.noConfusion hres
  · rw [if_neg hs] at hres
    injection hres with h1 h2
    exact ⟨h1.symm, h2.symm, hs⟩

theorem asciiResult_ne_null (w h : Nat) (st : PixelScan) :
    asciiResult w h st ≠ LoadResult.null := by
  unfold asciiResult
  by_cases hs : st.stray = []
  · rw [if_pos hs]; exact fun h => LoadResult.noConfusion h
  · rw [if_neg hs]; exact fun h => LoadResult.noConfusion h

theorem fread_count_one (size : Nat) (s : List Nat) (h : (fread size 1 s).count = 1) :
    0 < size ∧ size ≤ s.length ∧ (fread size 1 s).bytes = s.take size := by
  by_cases h0 : size = 0
  · simp [fread, h0] at h
  · have hb : (fread size 1 s).bytes = s.take size := by simp [fread, h0]
    have hc : (fread size 1 s).count = min size s.length / size := by simp [fread, h0]
    rw [hc] at h
    refine ⟨by omega, ?_, hb⟩
    by_contra hlt
    have hmin : min size s.length = s.length := by omega
    rw [hmin, Nat.div_eq_of_lt (by omega)] at h
    exact absurd h (by decide)

theorem fread_short (size : Nat) (s : List Nat) (h : s.length < size) :
    (fread size 1 s).count = 0 := by
  unfold fread
  have h0 : size ≠ 0 := by omega
  have hmin : min size s.length = s.length := by omega
  simp only [h0, false_or, Nat.one_ne_zero, if_false, Nat.mul_one, List.length_take, hmin]
  exact Nat.div_eq_of_lt h

theorem chunk3_length (l : List Nat) : (chunk3 l).length = l.length / 3 := by
  induction l using chunk3.induct with
  | case1 r g b rest ih =>
    simp only [chunk3, List.length_cons, ih]
    omega
  | case2 l hl =>
    have hlen : l.length < 3 := by
      match l, hl with
      | [], _ => simp
      | [_], _ => simp
      | [_, _], _ => simp
      | a :: b :: c :: t, hl => exact absurd rfl (hl a b c t)
    rw [chunk3]
    · simp; omega
    · exact hl

/-! ## The size of the pixel buffer -/

theorem plain_binary_header (w h : Nat) (hin : List Nat) (tail : List Nat)
    (hhead : hin = 80 :: 54 :: ([10] ++ (printUInt w ++ 32 :: (printUInt h ++
      [10, 50, 53, 53, 10])))) :
    hin ++ tail = 80 :: 54 :: ([10] ++ (printUInt w ++ 32 :: (printUInt h ++
      10 :: 50 :: 53 :: 53 :: 10 :: tail))) := by
  rw [hhead]; simp

/-- The decoder on `"P6\n65536 65537\n255\n"` followed by at least 196607
bytes: the 32-bit product of the dimensions is 65536, so 196608 bytes are
requested and read, and an image of 65536 cells is returned. -/
theorem LoadStream_wrapped_binary (heap : Nat → RgbColor) (tail : List Nat)
    (hlen : 196608 ≤ (10 :: tail).length) :
    LoadStream heap (ascii "P6\n65536 65537\n255\n" ++ tail) =
      ⟨LoadResult.image ⟨65536, 65537, chunk3 ((10 :: tail).take 196608), PPM_MODE_P6⟩,
        [Alloc.imageRecord, Alloc.pixelBuffer 196608]⟩ := by
  have hz : 65536 * 65537 % 2 ^ 32 * 3 = 196608 := by decide
  rw [plain_binary_header 65536 65537 _ tail (by decide),
    LoadStream_binary heap 80 65536 65537 [10] tail (by decide) (plain_gap 65536) (by decide)
      (by decide),
    hz, fread_one 196608 (10 :: tail) (by decide) hlen, if_pos rfl]

/-- C11 at a failing input: for the header `"P6\n65536 65537\n255\n"` followed
by 196608 bytes the decoder requests a pixel buffer of 196608 bytes and returns
an image of width 65536 and height 65537 whose buffer holds 65536 cells, not
`65536 * 65537`; the index `1 * Width + 0` of the pixel `(0, 1)` lies outside
the buffer. -/
theorem LoadImage_buffer_smaller_than_dimensions :
    ∃ pImage,
      LoadImage (FileSystem.single [97]
          (ascii "P6\n65536 65537\n255\n" ++ List.replicate 196608 0))
        (fun _ => ⟨0, 0, 0⟩) (some [97]) =
        ⟨LoadResult.image pImage, [Alloc.imageRecord, Alloc.pixelBuffer 196608]⟩ ∧
      pImage.Width = 65536 ∧ pImage.Heigth = 65537 ∧ pImage.Pixels.length = 65536 ∧
      pImage.Pixels.length < pImage.Width * pImage.Heigth ∧
      ¬ (1 * pImage.Width + 0 < pImage.Pixels.length) := by
  have hlen : 196608 ≤ (10 :: List.replicate 196608 0).length := by
    rw [List.length_cons, List.length_replicate]; decide
  have hcells : (chunk3 ((10 :: List.replicate 196608 0).take 196608)).length = 65536 := by
    rw [chunk3_length, List.length_take, List.length_cons, List.length_replicate]; decide
  refine ⟨⟨65536, 65537, chunk3 ((10 :: List.replicate 196608 0).take 196608), PPM_MODE_P6⟩,
    ?_, rfl, rfl, hcells, ?_, ?_⟩
  · rw [LoadImage_of_file _ _ [97] _ (by decide) (FileSystem.single_content _ _),
      LoadStream_wrapped_binary _ _ hlen]
  · show (chunk3 ((10 :: List.replicate 196608 0).take 196608)).length < 65536 * 65537
    rw [hcells]; decide
  · show ¬ (1 * 65536 + 0 < (chunk3 ((10 :: List.replicate 196608 0).take 196608)).length)
    rw [hcells]; decide

/-- C13 at a failing input: for the header `"P6\n65536 65537\n255\n"` followed
by 196608 bytes the whole file is shorter than `Width * Heigth * 3` bytes, so
the bulk read obtains fewer bytes than that, and yet the decoder returns an
image: the size it asks `fread` for comes from the 32-bit product of the
dimensions, 65536 cells, and the stream holds that many. -/
theorem LoadImage_binary_short_read_accepted :
    (ascii "P6\n65536 65537\n255\n" ++ List.replicate 196608 0).length < 65536 * 65537 * 3 ∧
    (LoadImage (FileSystem.single [97]
          (ascii "P6\n65536 65537\n255\n" ++ List.replicate 196608 0))
        (fun _ => ⟨0, 0, 0⟩) (some [97])).result =
      LoadResult.image ⟨65536, 65537, chunk3 ((10 :: List.replicate 196608 0).take 196608),
        PPM_MODE_P6⟩ := by
  have hlen : 196608 ≤ (10 :: List.replicate 196608 0).length := by
    rw [List.length_cons, List.length_replicate]; decide
  have hhead : (ascii "P6\n65536 65537\n255\n").length = 19 := by decide
  refine ⟨?_, ?_⟩
  · rw [List.length_append, List.length_replicate, hhead]; decide
  · rw [LoadImage_of_file _ _ [97] _ (by decide) (FileSystem.single_content _ _),
      LoadStream_wrapped_binary _ _ hlen]

/-- A short bulk read, for sizes whose 32-bit product does not wrap: for every
P6 input whose header gives `Width * Heigth < 2 ^ 32`, if fewer than
`Width * Heigth * 3` bytes are left in the stream at the bulk read, the
assertion stops `LoadImage` and no image is returned; and whenever `LoadImage`
returns an image, the stream held at least `Width * Heigth * 3` bytes and the
pixel buffer holds exactly the first `Width * Heigth * 3` of them, as
`Width * Heigth` cells. -/
theorem LoadImage_binary_short_read (fs : FileSystem) (heap : Nat → RgbColor)
    (name input : List Nat) (hname : name ≠ []) (hfile : fs.content name = some input)
    (hsig : (signatureToken input).getD 1 0 = 54)
    (hsize : headerWidth input * headerHeigth input < 2 ^ 32) :
    ((pixelStream input).length < headerWidth input * headerHeigth input * 3 →
        LoadImage fs heap (some name) =
          ⟨LoadResult.abort, [Alloc.imageRecord,
            Alloc.pixelBuffer (headerWidth input * headerHeigth input * 3)]⟩) ∧
      (∀ pImage, (LoadImage fs heap (some name)).result = LoadResult.image pImage →
        headerWidth input * headerHeigth input * 3 ≤ (pixelStream input).length ∧
        pImage.Pixels =
          chunk3 ((pixelStream input).take (headerWidth input * headerHeigth input * 3)) ∧
        pImage.Pixels.length = headerWidth input * headerHeigth input ∧
        pImage.Width = headerWidth input ∧ pImage.Heigth = headerHeigth input) := by
  rw [LoadImage_of_file fs heap name input hname hfile, LoadStream_fields, hsig,
    if_neg (by decide), if_pos rfl, Nat.mod_eq_of_lt hsize]
  constructor
  · intro hshort
    rw [fread_short _ _ hshort, if_neg (by decide)]
  · intro pImage himg
    by_cases hc : (fread (headerWidth input * headerHeigth input * 3) 1
        (pixelStream input)).count = 1
    · obtain ⟨_, hle, hbytes⟩ := fread_count_one _ _ hc
      rw [if_pos hc, hbytes] at himg
      have hp := (LoadResult.image.inj himg).symm
      rw [hp]
      dsimp only
      refine ⟨hle, rfl, ?_, rfl, rfl⟩
      rw [chunk3_length, List.length_take]
      omega
    · rw [if_neg hc] at himg
      exact absurd himg (by simp)

theorem LoadImage_binary_short_read_example :
    (LoadImage (FileSystem.single [97] (ascii "P6\n1 1\n255\n" ++ [7]))
        (fun _ => ⟨0, 0, 0⟩) (some [97])).result = LoadResult.abort :=
  congrArg LoadOutcome.result
    ((LoadImage_binary_short_read (FileSystem.single [97] (ascii "P6\n1 1\n255\n" ++ [7]))
      (fun _ => ⟨0, 0, 0⟩) [97] (ascii "P6\n1 1\n255\n" ++ [7]) (by decide) (by decide)
      (by decide) (by decide)).1 (by decide))

/-! ## Zero dimensions -/

theorem scanRows_zero_width (n y : Nat) (st : PixelScan) : scanRows 0 n y st = st := by
  induction n generalizing y with
  | zero => rfl
  | succ n ih => simp only [scanRows, scanRow, ih]

/-- C12 fails as stated: `"P3\n0 0\n255\n"` is decoded to an image of width 0
and height 0 with an empty pixel buffer. -/
theorem LoadImage_ascii_zero_dimensions :
    LoadImage (FileSystem.single [97] (ascii "P3\n0 0\n255\n")) (fun _ => ⟨0, 0, 0⟩)
        (some [97]) =
      ⟨LoadResult.image ⟨0, 0, [], PPM_MODE_P3⟩, [Alloc.imageRecord, Alloc.pixelBuffer 0]⟩ := by
  decide

/-- C12, amended: for every input on which `LoadImage` returns a P6 image, the
width and the height of the image are both positive (a zero dimension makes
the block size zero and the assertion on `fread` stops the run); the
dimensions of a P3 input are not checked: when its header gives 0 for either
dimension, `LoadImage` returns an image with these dimensions and no pixel. -/
theorem LoadImage_dimensions (fs : FileSystem) (heap : Nat → RgbColor)
    (name input : List Nat) (hname : name ≠ []) (hfile : fs.content name = some input) :
    (∀ pImage, (LoadImage fs heap (some name)).result = LoadResult.image pImage →
        pImage.Mode = PPM_MODE_P6 → 0 < pImage.Width ∧ 0 < pImage.Heigth) ∧
      ((signatureToken input).getD 1 0 = 51 →
        headerWidth input = 0 ∨ headerHeigth input = 0 →
        (LoadImage fs heap (some name)).result =
          LoadResult.image ⟨headerWidth input, headerHeigth input, [], PPM_MODE_P3⟩) := by
  rw [LoadImage_of_file fs heap name input hname hfile, LoadStream_fields]
  constructor
  · intro pImage himg hmode
    by_cases h3 : (signatureToken input).getD 1 0 = 51
    · rw [if_pos h3] at himg
      dsimp only at himg
      have hp := (asciiResult_image _ _ _ _ himg).1
      rw [hp] at hmode
      exact PPM_MODE.noConfusion hmode
    · rw [if_neg h3] at himg
      by_cases h6 : (signatureToken input).getD 1 0 = 54
      · rw [if_pos h6] at himg
        by_cases hc : (fread (headerWidth input * headerHeigth input % 2 ^ 32 * 3) 1
            (pixelStream input)).count = 1
        · obtain ⟨hpos, _, _⟩ := fread_count_one _ _ hc
          rw [if_pos hc] at himg
          have hp := (LoadResult.image.inj himg).symm
          rw [hp]
          dsimp only
          have hmul : headerWidth input * headerHeigth input ≠ 0 := by
            intro h0
            rw [h0] at hpos
            exact absurd hpos (by decide)
          exact ⟨Nat.pos_of_ne_zero (fun h => hmul (by rw [h, Nat.zero_mul])),
            Nat.pos_of_ne_zero (fun h => hmul (by rw [h, Nat.mul_zero]))⟩
        · rw [if_neg hc] at himg
          exact absurd himg (by simp)
      · rw [if_neg h6] at himg
        exact absurd himg (by simp)
  · intro h3 hzero
    have hmul : headerWidth input * headerHeigth input = 0 := by
      rcases hzero with h | h
      · rw [h, Nat.zero_mul]
      · rw [h, Nat.mul_zero]
    rw [if_pos h3, hmul]
    have hrows : scanRows (headerWidth input) (headerHeigth input) 0
        ⟨pixelStream input, (List.range (0 % 2 ^ 32)).map heap, 0, 0, 0, []⟩ =
        ⟨pixelStream input, [], 0, 0, 0, []⟩ := by
      rcases hzero with h | h
      · rw [h]; exact scanRows_zero_width _ _ _
      · rw [h]; rfl
    rw [hrows]
    rfl

theorem LoadImage_dimensions_witness :
    (LoadImage (FileSystem.single [97] (ascii "P3\n0 5\n255\n1 2 3\n"))
        (fun _ => ⟨0, 0, 0⟩) (some [97])).result =
      LoadResult.image ⟨0, 5, [], PPM_MODE_P3⟩ :=
  (LoadImage_dimensions (FileSystem.single [97] (ascii "P3\n0 5\n255\n1 2 3\n"))
    (fun _ => ⟨0, 0, 0⟩) [97] (ascii "P3\n0 5\n255\n1 2 3\n") (by decide) (by decide)).2
    (by decide) (by decide)

/-! ## The bounds of the luminance transform -/

/-- C14 fails as stated: for `(255, 255, 0)` every output channel of
`ToGrayScale` is 225, above the bound 76 claimed for red, 149 claimed for
green and 36 claimed for blue. -/
theorem ToGrayScale_exceeds_channel_bounds :
    ToGrayScale ⟨255, 255, 0⟩ = ⟨225, 225, 225⟩ ∧
      ¬ ((ToGrayScale ⟨255, 255, 0⟩).R ≤ 76) ∧ ¬ ((ToGrayScale ⟨255, 255, 0⟩).G ≤ 149) ∧
      ¬ ((ToGrayScale ⟨255, 255, 0⟩).B ≤ 36) := by
  decide

/-- C14, amended: for every colour with 8-bit channels, the truncated weighted
value of each channel is at most its maximum, `floor(R * 0.299) ≤ 76`,
`floor(G * 0.587) ≤ 149`, `floor(B * 0.144) ≤ 36`; the three output channels
of `ToGrayScale` are equal to one another, each is the sum of the three
truncated values reduced modulo 256, and each is at most 255. -/
theorem ToGrayScale_channel_bounds (c : RgbColor) (hc : c.valid) :
    mulTrunc c.R mant299 54 ≤ 76 ∧ mulTrunc c.G mant587 53 ≤ 149 ∧
      mulTrunc c.B mant144 55 ≤ 36 ∧
      (ToGrayScale c).R =
        (mulTrunc c.R mant299 54 + mulTrunc c.G mant587 53 + mulTrunc c.B mant144 55) % 256 ∧
      (ToGrayScale c).G = (ToGrayScale c).R ∧ (ToGrayScale c).B = (ToGrayScale c).R ∧
      (ToGrayScale c).R ≤ 255 := by
  obtain ⟨hr, hg, hb⟩ := hc
  have hhalf : ∀ s : Nat, (2 * s + 1) / 2 = s := fun s => by omega
  have e1 := mulTrunc_299 c.R hr
  have e2 := mulTrunc_587 c.G hg
  have e3 := mulTrunc_144 c.B hb
  refine ⟨by omega, by omega, by omega, ?_, rfl, rfl, ?_⟩
  · simp only [ToGrayScale, hhalf]
  · simp only [ToGrayScale, hhalf]
    omega

theorem ToGrayScale_channel_bounds_witness :
    mulTrunc 255 mant299 54 ≤ 76 ∧ mulTrunc 255 mant587 53 ≤ 149 ∧
      mulTrunc 0 mant144 55 ≤ 36 ∧
      (ToGrayScale ⟨255, 255, 0⟩).R =
        (mulTrunc 255 mant299 54 + mulTrunc 255 mant587 53 + mulTrunc 0 mant144 55) % 256 ∧
      (ToGrayScale ⟨255, 255, 0⟩).G = (ToGrayScale ⟨255, 255, 0⟩).R ∧
      (ToGrayScale ⟨255, 255, 0⟩).B = (ToGrayScale ⟨255, 255, 0⟩).R ∧
      (ToGrayScale ⟨255, 255, 0⟩).R ≤ 255 :=
  ToGrayScale_channel_bounds ⟨255, 255, 0⟩ (by decide)


/-! ## One call of `ClearComment` -/

theorem ClearComment_cr (s : List Nat) : ClearComment (13 :: s) = ClearComment s := by
  simp [ClearComment, skipLineBreaks]

theorem ClearComment_breaks (n t : List Nat) (hn : ∀ c ∈ n, c = 10 ∨ c = 13) :
    ClearComment (n ++ t) = ClearComment t := by
  induction n with
  | nil => rfl
  | cons c cs ih =>
    have hcs : ∀ c ∈ cs, c = 10 ∨ c = 13 := fun c hc => hn c (List.mem_cons_of_mem _ hc)
    rcases hn c (by simp) with h | h
    · rw [h, List.cons_append, ClearComment_lf, ih hcs]
    · rw [h, List.cons_append, ClearComment_cr, ih hcs]

theorem ClearComment_of_start (t : List Nat) (ht : ∀ c ∈ t.head?, c ≠ 10 ∧ c ≠ 13 ∧ c ≠ 35) :
    ClearComment t = t := by
  cases t with
  | nil => rfl
  | cons c cs =>
    obtain ⟨h1, h2, h3⟩ := ht c (by simp)
    exact ClearComment_of_head c cs h1 h2 h3

/-- The call `fgets` stops after `k` bytes when none of them is a line feed. -/
theorem fgetsAux_full (k : Nat) (l rest : List Nat) (hl : 10 ∉ l) (hlen : l.length = k) :
    fgetsAux k (l ++ rest) = (l, rest) := by
  induction l generalizing k with
  | nil =>
    have : k = 0 := by simpa using hlen.symm
    subst this
    simp [fgetsAux]
  | cons c cs ih =>
    obtain ⟨k, rfl⟩ : ∃ j, k = j + 1 := ⟨k - 1, by simp at hlen; omega⟩
    have hc : c ≠ 10 := fun h => hl (by simp [h])
    have hcs : 10 ∉ cs := fun h => hl (List.mem_cons_of_mem _ h)
    have := ih k hcs (by simpa using hlen)
    simp [fgetsAux, hc, this]

/-- A comment line that does not fit: `'#'` and the next 1021 bytes are consumed
and what follows them stays in the stream. -/
theorem ClearComment_long (text rest : List Nat) (htext : 10 ∉ text)
    (hlen : text.length = 1021) : ClearComment (35 :: (text ++ rest)) = rest := by
  have h := fgetsAux_full 1022 (35 :: text) rest
    (by simp only [List.mem_cons, not_or]; exact ⟨by decide, htext⟩)
    (by simp only [List.length_cons]; omega)
  simp only [ClearComment, skipLineBreaks, fpeek, fgets, MAX_BUFFER_SIZE]
  simp only [List.cons_append] at h
  simp [h]

theorem fscanf_u_no_digit (x c : Nat) (s : List Nat) (hsp : isspace c = false)
    (hsign : c ≠ 45 ∧ c ≠ 43) (hd : isdigit c = false) :
    fscanf_u x (c :: s) = (x, c :: s) := by
  simp [fscanf_u, scanUnsigned, skipSpace, skipSign, takeDigits, hsp, hsign.1, hsign.2, hd]

/-- Every image the decoder returns carries the width and the height read from the header. -/
theorem LoadStream_image_dimensions (heap : Nat → RgbColor) (input : List Nat)
    (pImage : PpmImage) (himg : (LoadStream heap input).result = LoadResult.image pImage) :
    pImage.Width = headerWidth input ∧ pImage.Heigth = headerHeigth input := by
  rw [LoadStream_fields] at himg
  by_cases h3 : (signatureToken input).getD 1 0 = 51
  · rw [if_pos h3] at himg
    dsimp only at himg
    rw [(asciiResult_image _ _ _ _ himg).1]
    dsimp only
    exact ⟨rfl, rfl⟩
  · rw [if_neg h3] at himg
    by_cases h6 : (signatureToken input).getD 1 0 = 54
    · rw [if_pos h6] at himg
      by_cases hc : (fread (headerWidth input * headerHeigth input % 2 ^ 32 * 3) 1
          (pixelStream input)).count = 1
      · rw [if_pos hc] at himg
        rw [(LoadResult.image.inj himg).symm]
        dsimp only
        exact ⟨rfl, rfl⟩
      · rw [if_neg hc] at himg
        exact absurd himg (by simp)
    · rw [if_neg h6] at himg
      exact absurd himg (by simp)

/-- The width read from a header whose signature is followed by two comment
lines: the second `'#'` is where `fscanf` looks for the width, so nothing is
assigned and `imgWidth` keeps its initial value 0. -/
theorem headerWidth_two_comments (digit : Nat) (a rest : List Nat) (hdigit : digit ≠ 10)
    (ha : 10 ∉ a) (hlen : a.length ≤ 1020) :
    headerWidth (80 :: digit :: 10 :: 35 :: (a ++ 10 :: 35 :: rest)) = 0 := by
  unfold headerWidth
  rw [ClearComment_of_head 80 _ (by decide) (by decide) (by decide)]
  have hsig : fgets 3 (80 :: digit :: 10 :: 35 :: (a ++ 10 :: 35 :: rest)) =
      ([80, digit], 10 :: 35 :: (a ++ 10 :: 35 :: rest)) := by
    simp [fgets, fgetsAux, hdigit]
  rw [hsig]
  dsimp only
  rw [ClearComment_lf, ClearComment_comment a _ ha hlen,
    fscanf_u_no_digit 0 35 rest (by decide) (by decide) (by decide)]

/-- C15: for every stream `n ++ "#" ++ text ++ "\n" ++ rest`, where `n` is a
run of line feeds and carriage returns and `text` holds no line feed and at
most 1020 bytes, `ClearComment` leaves the stream exactly at `rest`, whatever
`rest` starts with (blank lines and a second comment line are not consumed);
when the byte after `n` is not `'#'` (nor a line break), `ClearComment`
consumes `n` only; and a header with two consecutive comment lines before the
width is not decoded to the written width: any image returned has width 0. -/
theorem ClearComment_one_shot (n text rest : List Nat) (hn : ∀ c ∈ n, c = 10 ∨ c = 13) :
    (10 ∉ text → text.length ≤ 1020 →
        ClearComment (n ++ 35 :: (text ++ 10 :: rest)) = rest) ∧
      ((∀ c ∈ rest.head?, c ≠ 10 ∧ c ≠ 13 ∧ c ≠ 35) → ClearComment (n ++ rest) = rest) ∧
      (∀ (heap : Nat → RgbColor) (digit w : Nat) (second tail : List Nat) (pImage : PpmImage),
        10 ∉ text → text.length ≤ 1020 → digit = 51 ∨ digit = 54 → 1 ≤ w →
        (LoadStream heap (80 :: digit :: 10 :: 35 :: (text ++ 10 :: 35 ::
            (second ++ 10 :: (printUInt w ++ tail))))).result = LoadResult.image pImage →
        pImage.Width = 0 ∧ pImage.Width ≠ w) := by
  refine ⟨?_, ?_, ?_⟩
  · intro htext hlen
    rw [ClearComment_breaks n _ hn, ClearComment_comment text rest htext hlen]
  · intro hrest
    rw [ClearComment_breaks n _ hn, ClearComment_of_start rest hrest]
  · intro heap digit w second tail pImage htext hlen hdigit hw himg
    have hd : digit ≠ 10 := by omega
    have hwidth := (LoadStream_image_dimensions heap _ pImage himg).1
    rw [headerWidth_two_comments digit text _ hd htext hlen] at hwidth
    exact ⟨hwidth, by omega⟩

theorem ClearComment_one_shot_witness :
    ClearComment (ascii "\n\r\n#one\n\n#two\n2 2\n") = ascii "\n#two\n2 2\n" ∧
      ClearComment (ascii "\n\r\n2 2\n") = ascii "2 2\n" ∧
      (LoadStream (fun _ => ⟨0, 0, 0⟩)
          (ascii "P3\n#one\n#two\n2 1\n255\n1 2 3\n4 5 6\n")).result =
          LoadResult.image ⟨0, 2, [], PPM_MODE_P3⟩ ∧
      (PpmImage.mk 0 2 [] PPM_MODE_P3).Width = 0 ∧
      (PpmImage.mk 0 2 [] PPM_MODE_P3).Width ≠ 2 :=
  ⟨(ClearComment_one_shot [10, 13, 10] (ascii "one") (ascii "\n#two\n2 2\n")
      (by decide)).1 (by decide) (by decide),
   (ClearComment_one_shot [10, 13, 10] (ascii "one") (ascii "2 2\n") (by decide)).2.1
      (by decide),
   by decide,
   (ClearComment_one_shot [] (ascii "one") [] (by decide)).2.2 (fun _ => ⟨0, 0, 0⟩) 51 2
      (ascii "two") (ascii " 1\n255\n1 2 3\n4 5 6\n") ⟨0, 2, [], PPM_MODE_P3⟩
      (by decide) (by decide) (by decide) (by decide) (by decide)⟩

theorem fgets_two (c d : Nat) (s : List Nat) (hc : c ≠ 10) (hd : d ≠ 10) :
    fgets 3 (c :: d :: s) = ([c, d], s) := by
  simp [fgets, fgetsAux, hc, hd]

/-- C16 at a failing input: of a comment line `'#'` followed by 1030 bytes
`'x'` and a line feed, `ClearComment` consumes `'#'` and 1021 bytes; the last
nine `'x'`, the line feed and the following line stay in the stream, where the
decoder then looks for the width: the image
`"P6\n#x...x\n1 1\n255\n"` with its three pixel bytes is not decoded. -/
theorem ClearComment_leaves_long_comment :
    ClearComment (35 :: (List.replicate 1030 120 ++ 10 :: ascii "1 1\n255\n")) =
        List.replicate 9 120 ++ 10 :: ascii "1 1\n255\n" ∧
      LoadStream (fun _ => ⟨0, 0, 0⟩)
          (ascii "P6\n#" ++ List.replicate 1030 120 ++ ascii "\n1 1\n255\n" ++ [1, 2, 3]) =
        ⟨LoadResult.abort, [Alloc.imageRecord, Alloc.pixelBuffer 0]⟩ := by
  have hsplit : List.replicate 1030 120 = List.replicate 1021 120 ++ List.replicate 9 120 := by
    rw [List.append_replicate_replicate]
  have hno : 10 ∉ List.replicate 1021 120 := by
    intro h
    exact absurd (List.mem_replicate.mp h).2 (by decide)
  have hclear : ∀ rest, ClearComment (35 :: (List.replicate 1030 120 ++ rest)) =
      List.replicate 9 120 ++ rest := by
    intro rest
    rw [hsplit, List.append_assoc,
      ClearComment_long (List.replicate 1021 120) _ hno (List.length_replicate _ _)]
  have h9 : List.replicate 9 120 = [120, 120, 120, 120, 120, 120, 120, 120, 120] := by
    decide
  refine ⟨hclear _, ?_⟩
  have hin : ascii "P6\n#" ++ List.replicate 1030 120 ++ ascii "\n1 1\n255\n" ++ [1, 2, 3] =
      80 :: 54 :: 10 :: 35 :: (List.replicate 1030 120 ++ (ascii "\n1 1\n255\n" ++ [1, 2, 3])) := by
    have e : ascii "P6\n#" = [80, 54, 10, 35] := by decide
    rw [e]; simp only [List.cons_append, List.nil_append, List.append_assoc]
  have hsig : fgets 3 (80 :: 54 :: 10 :: 35 ::
      (List.replicate 1030 120 ++ (ascii "\n1 1\n255\n" ++ [1, 2, 3]))) =
      ([80, 54], 10 :: 35 ::
        (List.replicate 1030 120 ++ (ascii "\n1 1\n255\n" ++ [1, 2, 3]))) :=
    fgets_two 80 54 _ (by decide) (by decide)
  have hx : ∀ s, fscanf_u 0 (120 :: s) = (0, 120 :: s) := fun s =>
    fscanf_u_no_digit 0 120 s (by decide) (by decide) (by decide)
  have hcx : ∀ s, ClearComment (120 :: s) = 120 :: s := fun s =>
    ClearComment_of_head 120 s (by decide) (by decide) (by decide)
  have hw : fscanf_u 0 (ClearComment (10 :: 35 ::
      (List.replicate 1030 120 ++ (ascii "\n1 1\n255\n" ++ [1, 2, 3])))) =
      (0, List.replicate 9 120 ++ (ascii "\n1 1\n255\n" ++ [1, 2, 3])) := by
    rw [ClearComment_lf, hclear, h9]
    exact hx _
  have hh : fscanf_u 0 (ClearComment
      (List.replicate 9 120 ++ (ascii "\n1 1\n255\n" ++ [1, 2, 3]))) =
      (0, List.replicate 9 120 ++ (ascii "\n1 1\n255\n" ++ [1, 2, 3])) := by
    rw [h9]
    show fscanf_u 0 (ClearComment (120 :: _)) = (0, 120 :: _)
    rw [hcx]
    exact hx _
  rw [hin, LoadStream_of_header _ _ _ _ _ _ 80 54 0 0 0
    (by rw [ClearComment_of_head 80 _ (by decide) (by decide) (by decide)]; exact hsig)
    hw hh hh]
  rw [if_neg (by decide), if_pos rfl]
  have hz : 0 * 0 % 2 ^ 32 * 3 % 2 ^ 64 = 0 := by decide
  rw [hz, fread_zero, if_neg (by decide)]

/-! ## The first signature byte -/

theorem fgetsAux_rest_length (k : Nat) (s : List Nat) : (fgetsAux k s).2.length ≤ s.length := by
  induction s generalizing k with
  | nil => cases k <;> simp [fgetsAux]
  | cons c cs ih =>
    cases k with
    | zero => simp [fgetsAux]
    | succ k =>
      by_cases hc : c = 10
      · simp [fgetsAux, hc]
      · have := ih k
        simp only [fgetsAux, hc, if_false, List.length_cons]
        omega

/-- What one call of `fgets` consumes does not depend on what follows it. -/
theorem fgetsAux_consumed (l : List Nat) :
    ∀ (k x : Nat) (t0 : List Nat), (fgetsAux k (l ++ x :: t0)).2 = x :: t0 →
      ∀ u, (fgetsAux k (l ++ u)).2 = u := by
  induction l with
  | nil =>
    intro k x t0 h u
    cases k with
    | zero => simp [fgetsAux]
    | succ k =>
      exfalso
      have hlen := congrArg List.length h
      by_cases hx : x = 10
      · simp [fgetsAux, hx] at hlen
      · have := fgetsAux_rest_length k t0
        simp only [List.nil_append, fgetsAux, hx, if_false, List.length_cons] at hlen
        omega
  | cons a l ih =>
    intro k x t0 h u
    cases k with
    | zero =>
      exfalso
      have hlen := congrArg List.length h
      simp [fgetsAux] at hlen
      omega
    | succ k =>
      by_cases ha : a = 10
      · subst ha
        have hl : l = [] := by
          have hlen := congrArg List.length h
          simp [fgetsAux] at hlen
          exact hlen
        subst hl
        simp [fgetsAux]
      · simp only [List.cons_append, fgetsAux, ha, if_false] at h ⊢
        exact ih k x t0 h u

/-- What `ClearComment` consumes in front of the signature does not depend on
the signature byte, as long as that byte is no line break and no `'#'`. -/
theorem ClearComment_lead (lead : List Nat) :
    ∀ (t0 : List Nat), ClearComment (lead ++ 80 :: t0) = 80 :: t0 →
      ∀ (c : Nat) (u : List Nat), c ≠ 10 ∧ c ≠ 13 ∧ c ≠ 35 →
        ClearComment (lead ++ c :: u) = c :: u := by
  induction lead with
  | nil =>
    intro t0 _ c u hc
    exact ClearComment_of_head c u hc.1 hc.2.1 hc.2.2
  | cons a lead ih =>
    intro t0 h c u hc
    by_cases h10 : a = 10
    · subst h10
      rw [List.cons_append, ClearComment_lf] at h ⊢
      exact ih t0 h c u hc
    · by_cases h13 : a = 13
      · subst h13
        rw [List.cons_append, ClearComment_cr] at h ⊢
        exact ih t0 h c u hc
      · by_cases h35 : a = 35
        · subst h35
          have hdef : ∀ s, ClearComment (35 :: s) = (fgetsAux 1022 (35 :: s)).2 := by
            intro s
            simp [ClearComment, skipLineBreaks, fpeek, fgets, MAX_BUFFER_SIZE]
          rw [List.cons_append, hdef] at h ⊢
          exact fgetsAux_consumed (35 :: lead) 1022 80 t0 h (c :: u)
        · exfalso
          rw [List.cons_append, ClearComment_of_head a _ h10 h13 h35] at h
          have hlen := congrArg List.length h
          simp only [List.length_cons, List.length_append] at hlen
          omega

/-- The second byte of the signature buffer and the stream after the signature
do not depend on the first signature byte. -/
theorem fgets_signature (c : Nat) (rest : List Nat) (hc : c ≠ 10) :
    (fgets 3 (c :: rest)).1.getD 1 0 = rest.head?.getD 0 ∧
      (fgets 3 (c :: rest)).2 = rest.tail := by
  cases rest with
  | nil => simp [fgets, fgetsAux, hc]
  | cons d t =>
    by_cases hd : d = 10
    · simp [fgets, fgetsAux, hc, hd]
    · simp [fgets, fgetsAux, hc, hd]

/-- The decoder on a stream whose signature starts right away: only the second
signature byte and what follows it matter. -/
theorem LoadStream_signature_byte (lead rest : List Nat) (c : Nat)
    (hc : c ≠ 10) (hclear : ClearComment (lead ++ c :: rest) = c :: rest) :
    signatureToken (lead ++ c :: rest) = (fgets 3 (c :: rest)).1 ∧
      (signatureToken (lead ++ c :: rest)).getD 1 0 = rest.head?.getD 0 ∧
      headerWidth (lead ++ c :: rest) = (fscanf_u 0 (ClearComment rest.tail)).1 ∧
      afterWidth (lead ++ c :: rest) = (fscanf_u 0 (ClearComment rest.tail)).2 := by
  obtain ⟨h1, h2⟩ := fgets_signature c rest hc
  unfold signatureToken headerWidth afterWidth
  rw [hclear, h2]
  exact ⟨rfl, h1, rfl, rfl⟩

/-- C20: the first signature byte is never checked.  For every input whose
signature starts with `'P'`, replacing that byte by any byte other than a line
feed, a carriage return and `'#'` gives an input on which `LoadImage` ends in
the same way, with the same image when it returns one; the call is rejected
with the null pointer exactly when the second signature byte is neither `'3'`
nor `'6'`, and the mode of a returned image is P3 exactly when that byte is
`'3'` and P6 exactly when it is `'6'` (an image record returned after stores
outside the pixel buffer comes from the ASCII branch: its mode is P3 and that
byte is `'3'`). -/
theorem LoadImage_first_signature_byte (fs : FileSystem) (heap : Nat → RgbColor)
    (name1 name2 lead rest : List Nat) (c : Nat) (hname1 : name1 ≠ []) (hname2 : name2 ≠ [])
    (hfile1 : fs.content name1 = some (lead ++ 80 :: rest))
    (hfile2 : fs.content name2 = some (lead ++ c :: rest))
    (hlead : ClearComment (lead ++ 80 :: rest) = 80 :: rest)
    (hc : c ≠ 10 ∧ c ≠ 13 ∧ c ≠ 35) :
    LoadImage fs heap (some name2) = LoadImage fs heap (some name1) ∧
      ((LoadImage fs heap (some name1)).result = LoadResult.null ↔
        rest.head? ≠ some 51 ∧ rest.head? ≠ some 54) ∧
      (∀ pImage, (LoadImage fs heap (some name1)).result = LoadResult.image pImage →
        (pImage.Mode = PPM_MODE_P3 ↔ rest.head? = some 51) ∧
        (pImage.Mode = PPM_MODE_P6 ↔ rest.head? = some 54)) ∧
      (∀ pImage stray,
        (LoadImage fs heap (some name1)).result = LoadResult.overflow pImage stray →
        pImage.Mode = PPM_MODE_P3 ∧ rest.head? = some 51) := by
  have hclear2 := ClearComment_lead lead rest hlead c rest hc
  obtain ⟨_, a2, a3, a4⟩ := LoadStream_signature_byte lead rest 80 (by decide) hlead
  obtain ⟨_, b2, b3, b4⟩ := LoadStream_signature_byte lead rest c hc.1 hclear2
  have hpix : pixelStream (lead ++ c :: rest) = pixelStream (lead ++ 80 :: rest) := by
    unfold pixelStream maxColorStream
    rw [a4, b4]
  have hh : headerHeigth (lead ++ c :: rest) = headerHeigth (lead ++ 80 :: rest) := by
    unfold headerHeigth
    rw [a4, b4]
  have hw : headerWidth (lead ++ c :: rest) = headerWidth (lead ++ 80 :: rest) := by
    rw [a3, b3]
  have hd : ∀ v : Nat, rest.head?.getD 0 = v → v ≠ 0 → rest.head? = some v := by
    intro v hv hv0
    cases hr : rest.head? with
    | none => rw [hr] at hv; simp at hv; omega
    | some d => rw [hr] at hv; simp at hv; rw [hv]
  have hd2 : ∀ v : Nat, rest.head? = some v → rest.head?.getD 0 = v := by
    intro v hv; rw [hv]; rfl
  rw [LoadImage_of_file fs heap name1 _ hname1 hfile1,
    LoadImage_of_file fs heap name2 _ hname2 hfile2]
  refine ⟨?_, ?_, ?_, ?_⟩
  · rw [LoadStream_fields heap (lead ++ c :: rest), LoadStream_fields heap (lead ++ 80 :: rest),
      hpix, hh, hw, a2, b2]
  · rw [LoadStream_fields, a2]
    constructor
    · intro hnull
      constructor
      · intro h51
        rw [if_pos (hd2 51 h51)] at hnull
        dsimp only at hnull
        exact asciiResult_ne_null _ _ _ hnull
      · intro h54
        rw [if_neg (by rw [hd2 54 h54]; decide), if_pos (hd2 54 h54)] at hnull
        by_cases hcnt : (fread (headerWidth (lead ++ 80 :: rest) *
            headerHeigth (lead ++ 80 :: rest) % 2 ^ 32 * 3) 1
            (pixelStream (lead ++ 80 :: rest))).count = 1
        · rw [if_pos hcnt] at hnull; exact absurd hnull (by simp)
        · rw [if_neg hcnt] at hnull; exact absurd hnull (by simp)
    · intro hne
      have n51 : ¬ rest.head?.getD 0 = 51 := fun h => hne.1 (hd 51 h (by decide))
      have n54 : ¬ rest.head?.getD 0 = 54 := fun h => hne.2 (hd 54 h (by decide))
      rw [if_neg n51, if_neg n54]
  · intro pImage himg
    rw [LoadStream_fields, a2] at himg
    by_cases h3 : rest.head?.getD 0 = 51
    · have h51 := hd 51 h3 (by decide)
      rw [if_pos h3] at himg
      dsimp only at himg
      rw [(asciiResult_image _ _ _ _ himg).1, h51]
      dsimp only
      exact ⟨by simp, by simp⟩
    · rw [if_neg h3] at himg
      by_cases h6 : rest.head?.getD 0 = 54
      · have h54 := hd 54 h6 (by decide)
        rw [if_pos h6] at himg
        by_cases hcnt : (fread (headerWidth (lead ++ 80 :: rest) *
            headerHeigth (lead ++ 80 :: rest) % 2 ^ 32 * 3) 1
            (pixelStream (lead ++ 80 :: rest))).count = 1
        · rw [if_pos hcnt] at himg
          rw [(LoadResult.image.inj himg).symm, h54]
          dsimp only
          exact ⟨by simp, by simp⟩
        · rw [if_neg hcnt] at himg; exact absurd himg (by simp)
      · rw [if_neg h6] at himg; exact absurd himg (by simp)
  · intro pImage stray hres
    rw [LoadStream_fields, a2] at hres
    by_cases h3 : rest.head?.getD 0 = 51
    · rw [if_pos h3] at hres
      dsimp only at hres
      rw [(asciiResult_overflow _ _ _ _ _ hres).1]
      exact ⟨rfl, hd 51 h3 (by decide)⟩
    · rw [if_neg h3] at hres
      by_cases h6 : rest.head?.getD 0 = 54
      · rw [if_pos h6] at hres
        by_cases hcnt : (fread (headerWidth (lead ++ 80 :: rest) *
            headerHeigth (lead ++ 80 :: rest) % 2 ^ 32 * 3) 1
            (pixelStream (lead ++ 80 :: rest))).count = 1
        · rw [if_pos hcnt] at hres; exact absurd hres (by simp)
        · rw [if_neg hcnt] at hres; exact absurd hres (by simp)
      · rw [if_neg h6] at hres; exact absurd hres (by simp)

theorem LoadImage_first_signature_byte_witness :
    LoadImage ((FileSystem.single [97] (ascii "\n#c\nP6\n1 1\n255\n" ++ [1, 2, 3])).store [98]
          (ascii "\n#c\nX6\n1 1\n255\n" ++ [1, 2, 3])) (fun _ => ⟨0, 0, 0⟩) (some [98]) =
        LoadImage ((FileSystem.single [97] (ascii "\n#c\nP6\n1 1\n255\n" ++ [1, 2, 3])).store
          [98] (ascii "\n#c\nX6\n1 1\n255\n" ++ [1, 2, 3])) (fun _ => ⟨0, 0, 0⟩) (some [97]) ∧
      ((LoadImage ((FileSystem.single [97] (ascii "\n#c\nP6\n1 1\n255\n" ++ [1, 2, 3])).store
          [98] (ascii "\n#c\nX6\n1 1\n255\n" ++ [1, 2, 3])) (fun _ => ⟨0, 0, 0⟩)
          (some [97])).result = LoadResult.null ↔
        (ascii "6\n1 1\n255\n" ++ [1, 2, 3]).head? ≠ some 51 ∧
          (ascii "6\n1 1\n255\n" ++ [1, 2, 3]).head? ≠ some 54) ∧
      (∀ pImage,
        (LoadImage ((FileSystem.single [97] (ascii "\n#c\nP6\n1 1\n255\n" ++ [1, 2, 3])).store
          [98] (ascii "\n#c\nX6\n1 1\n255\n" ++ [1, 2, 3])) (fun _ => ⟨0, 0, 0⟩)
          (some [97])).result = LoadResult.image pImage →
        (pImage.Mode = PPM_MODE_P3 ↔
          (ascii "6\n1 1\n255\n" ++ [1, 2, 3]).head? = some 51) ∧
        (pImage.Mode = PPM_MODE_P6 ↔
          (ascii "6\n1 1\n255\n" ++ [1, 2, 3]).head? = some 54)) ∧
      (∀ pImage stray,
        (LoadImage ((FileSystem.single [97] (ascii "\n#c\nP6\n1 1\n255\n" ++ [1, 2, 3])).store
          [98] (ascii "\n#c\nX6\n1 1\n255\n" ++ [1, 2, 3])) (fun _ => ⟨0, 0, 0⟩)
          (some [97])).result = LoadResult.overflow pImage stray →
        pImage.Mode = PPM_MODE_P3 ∧
          (ascii "6\n1 1\n255\n" ++ [1, 2, 3]).head? = some 51) :=
  LoadImage_first_signature_byte
    ((FileSystem.single [97] (ascii "\n#c\nP6\n1 1\n255\n" ++ [1, 2, 3])).store [98]
      (ascii "\n#c\nX6\n1 1\n255\n" ++ [1, 2, 3]))
    (fun _ => ⟨0, 0, 0⟩) [97] [98] (ascii "\n#c\n") (ascii "6\n1 1\n255\n" ++ [1, 2, 3]) 88
    (by decide) (by decide) (by decide) (by decide) (by decide) (by decide)


/-! ## The max-colour field -/

theorem skipLineBreaks_length (s : List Nat) : (skipLineBreaks s).length ≤ s.length := by
  induction s with
  | nil => simp [skipLineBreaks]
  | cons c cs ih =>
    by_cases hc : c = 10 ∨ c = 13
    · simp only [skipLineBreaks, hc, if_true, List.length_cons]; omega
    · simp [skipLineBreaks, hc]

theorem ClearComment_length (s : List Nat) : (ClearComment s).length ≤ s.length := by
  have h1 := skipLineBreaks_length s
  have h2 := fgetsAux_rest_length (MAX_BUFFER_SIZE - 1 - 1) (skipLineBreaks s)
  unfold ClearComment fgets
  split <;> omega

theorem skipSpace_length (s : List Nat) : (skipSpace s).length ≤ s.length := by
  induction s with
  | nil => simp [skipSpace]
  | cons c cs ih =>
    by_cases hc : isspace c = true
    · simp only [skipSpace, hc, if_true, List.length_cons]; omega
    · simp [skipSpace, hc]

theorem skipSign_length (s : List Nat) : (skipSign s).2.length ≤ s.length := by
  cases s with
  | nil => simp [skipSign]
  | cons c cs =>
    simp only [skipSign]
    split
    · simp
    · split <;> simp

theorem takeDigits_length (s : List Nat) : (takeDigits s).2.length ≤ s.length := by
  induction s with
  | nil => simp [takeDigits]
  | cons c cs ih =>
    by_cases hc : isdigit c = true
    · simp only [takeDigits, hc, if_true, List.length_cons]; omega
    · simp [takeDigits, hc]

/-- What `fscanf(hFile, "%u", &x)` leaves in the stream: white space, an optional
sign and a run of digits are consumed, whether or not a value is assigned. -/
theorem fscanf_u_rest (x : Nat) (s : List Nat) :
    (fscanf_u x s).2 = (takeDigits (skipSign (skipSpace s)).2).2 := by
  unfold fscanf_u scanUnsigned
  dsimp only
  split <;> rename_i h <;> split at h <;> simp_all

theorem fscanf_u_length (x : Nat) (s : List Nat) : (fscanf_u x s).2.length ≤ s.length := by
  rw [fscanf_u_rest]
  exact le_trans (takeDigits_length _) (le_trans (skipSign_length _) (skipSpace_length _))

/-! ### What the header scan does in front of a digit

The lemmas below follow each read of the header on a stream `l ++ d :: t`
whose tail starts with a digit `d`: either the read ends inside `l` or right
in front of `d`, and then its result and the part of `l` it leaves are the same
for every such tail, or it reads on into the tail. -/

theorem skipLineBreaks_before_digit (l : List Nat) :
    ∃ r, ∀ d t, isdigit d = true → skipLineBreaks (l ++ d :: t) = r ++ d :: t := by
  induction l with
  | nil =>
    refine ⟨[], fun d t hd => ?_⟩
    have : ¬ (d = 10 ∨ d = 13) := by simp [isdigit] at hd; omega
    simp [skipLineBreaks, this]
  | cons c l ih =>
    by_cases hc : c = 10 ∨ c = 13
    · obtain ⟨r, hr⟩ := ih
      exact ⟨r, fun d t hd => by
        rw [List.cons_append, skipLineBreaks, if_pos hc]; exact hr d t hd⟩
    · exact ⟨c :: l, fun d t _ => by rw [List.cons_append, skipLineBreaks, if_neg hc]⟩

theorem fgetsAux_before (k : Nat) (l : List Nat) :
    (∃ v r, ∀ u, fgetsAux k (l ++ u) = (v, r ++ u)) ∨
      (∀ d t, (fgetsAux k (l ++ d :: t)).2.length < (d :: t).length) := by
  induction l generalizing k with
  | nil =>
    cases k with
    | zero => exact Or.inl ⟨[], [], fun u => by simp [fgetsAux]⟩
    | succ k =>
      refine Or.inr (fun d t => ?_)
      by_cases hd : d = 10
      · simp [fgetsAux, hd]
      · have := fgetsAux_rest_length k t
        simp only [List.nil_append, fgetsAux, hd, if_false, List.length_cons]
        omega
  | cons c l ih =>
    cases k with
    | zero => exact Or.inl ⟨[], c :: l, fun u => by simp [fgetsAux]⟩
    | succ k =>
      by_cases hc : c = 10
      · exact Or.inl ⟨[10], l, fun u => by simp [fgetsAux, hc]⟩
      · rcases ih k with ⟨v, r, h⟩ | hs
        · exact Or.inl ⟨c :: v, r, fun u => by
            rw [List.cons_append, fgetsAux, if_neg hc, h u]⟩
        · exact Or.inr (fun d t => by
            rw [List.cons_append, fgetsAux, if_neg hc]
            exact hs d t)

theorem ClearComment_before_digit (l : List Nat) :
    (∃ r, ∀ d t, isdigit d = true → ClearComment (l ++ d :: t) = r ++ d :: t) ∨
      (∀ d t, isdigit d = true → (ClearComment (l ++ d :: t)).length < (d :: t).length) := by
  obtain ⟨r, hr⟩ := skipLineBreaks_before_digit l
  cases r with
  | nil =>
    refine Or.inl ⟨[], fun d t hd => ?_⟩
    have h35 : d ≠ 35 := by simp [isdigit] at hd; omega
    simp [ClearComment, hr d t hd, fpeek, h35]
  | cons c r =>
    by_cases hc : c = 35
    · subst hc
      rcases fgetsAux_before 1022 (35 :: r) with ⟨v, r2, h⟩ | hs
      · exact Or.inl ⟨r2, fun d t hd => by
          unfold ClearComment
          rw [hr d t hd, if_pos (show fpeek (35 :: r ++ d :: t) = some 35 from rfl)]
          show (fgetsAux 1022 (35 :: r ++ d :: t)).2 = r2 ++ d :: t
          rw [h (d :: t)]⟩
      · exact Or.inr (fun d t hd => by
          unfold ClearComment
          rw [hr d t hd, if_pos (show fpeek (35 :: r ++ d :: t) = some 35 from rfl)]
          exact hs d t)
    · exact Or.inl ⟨c :: r, fun d t hd => by simp [ClearComment, hr d t hd, fpeek, hc]⟩

theorem skipSpace_before_digit (l : List Nat) :
    ∃ r, ∀ d t, isdigit d = true → skipSpace (l ++ d :: t) = r ++ d :: t := by
  induction l with
  | nil =>
    exact ⟨[], fun d t hd => by
      simp [skipSpace, isdigit_not_space d hd]⟩
  | cons c l ih =>
    by_cases hc : isspace c = true
    · obtain ⟨r, hr⟩ := ih
      exact ⟨r, fun d t hd => by
        rw [List.cons_append, skipSpace, if_pos hc]; exact hr d t hd⟩
    · exact ⟨c :: l, fun d t _ => by rw [List.cons_append, skipSpace, if_neg hc]⟩

theorem skipSign_before_digit (l : List Nat) :
    ∃ b r, ∀ d t, isdigit d = true → skipSign (l ++ d :: t) = (b, r ++ d :: t) := by
  cases l with
  | nil => exact ⟨false, [], fun d t hd => by simpa using skipSign_of_digit d t hd⟩
  | cons c l =>
    by_cases h45 : c = 45
    · exact ⟨true, l, fun d t _ => by simp [skipSign, h45]⟩
    · by_cases h43 : c = 43
      · exact ⟨false, l, fun d t _ => by simp [skipSign, h43]⟩
      · exact ⟨false, c :: l, fun d t _ => by simp [skipSign, h45, h43]⟩

theorem takeDigits_before_digit (l : List Nat) :
    (∃ v r, ∀ u, takeDigits (l ++ u) = (v, r ++ u)) ∨
      (∀ d t, isdigit d = true → (takeDigits (l ++ d :: t)).2.length < (d :: t).length) := by
  induction l with
  | nil =>
    refine Or.inr (fun d t hd => ?_)
    have := takeDigits_length t
    simp only [List.nil_append, takeDigits, hd, if_true, List.length_cons]
    omega
  | cons c l ih =>
    by_cases hc : isdigit c = true
    · rcases ih with ⟨v, r, h⟩ | hs
      · exact Or.inl ⟨c :: v, r, fun u => by
          rw [List.cons_append, takeDigits, if_pos hc, h u]⟩
      · exact Or.inr (fun d t hd => by
          rw [List.cons_append, takeDigits, if_pos hc]
          exact hs d t hd)
    · exact Or.inl ⟨[], c :: l, fun u => by simp [takeDigits, hc]⟩

theorem fscanf_u_before_digit (x : Nat) (l : List Nat) :
    (∃ v r, ∀ d t, isdigit d = true → fscanf_u x (l ++ d :: t) = (v, r ++ d :: t)) ∨
      (∀ d t, isdigit d = true → (fscanf_u x (l ++ d :: t)).2.length < (d :: t).length) := by
  obtain ⟨r1, h1⟩ := skipSpace_before_digit l
  obtain ⟨b, r2, h2⟩ := skipSign_before_digit r1
  rcases takeDigits_before_digit r2 with ⟨v, r3, h3⟩ | hs
  · refine Or.inl ⟨if v = [] then x
        else (if 2 ^ 64 ≤ digitsValue v then 2 ^ 64 - 1
          else if b = true then (2 ^ 64 - digitsValue v) % 2 ^ 64 else digitsValue v) % 2 ^ 32,
      r3, fun d t hd => ?_⟩
    unfold fscanf_u scanUnsigned
    simp only [h1 d t hd, h2 d t hd, h3 (d :: t)]
    by_cases hv : v = []
    · simp [hv]
    · simp [hv]
  · refine Or.inr (fun d t hd => ?_)
    rw [fscanf_u_rest, h1 d t hd, h2 d t hd]
    exact hs d t hd

/-- The signature read, in front of a digit. -/
theorem signature_before_digit (l : List Nat) :
    (∃ sig r, ∀ d t, isdigit d = true →
        fgets 3 (ClearComment (l ++ d :: t)) = (sig, r ++ d :: t)) ∨
      (∀ d t, isdigit d = true →
        (fgets 3 (ClearComment (l ++ d :: t))).2.length < (d :: t).length) := by
  rcases ClearComment_before_digit l with ⟨r1, h1⟩ | hs
  · rcases fgetsAux_before 2 r1 with ⟨sig, r2, h2⟩ | hs2
    · exact Or.inl ⟨sig, r2, fun d t hd => by rw [h1 d t hd]; exact h2 (d :: t)⟩
    · exact Or.inr (fun d t hd => by rw [h1 d t hd]; exact hs2 d t)
  · exact Or.inr (fun d t hd =>
      lt_of_le_of_lt (fgetsAux_rest_length 2 _) (hs d t hd))

/-- The read of one header field, in front of a digit. -/
theorem field_before_digit (l : List Nat) :
    (∃ v r, ∀ d t, isdigit d = true →
        fscanf_u 0 (ClearComment (l ++ d :: t)) = (v, r ++ d :: t)) ∨
      (∀ d t, isdigit d = true →
        (fscanf_u 0 (ClearComment (l ++ d :: t))).2.length < (d :: t).length) := by
  rcases ClearComment_before_digit l with ⟨r1, h1⟩ | hs
  · rcases fscanf_u_before_digit 0 r1 with ⟨v, r2, h2⟩ | hs2
    · exact Or.inl ⟨v, r2, fun d t hd => by rw [h1 d t hd]; exact h2 d t hd⟩
    · exact Or.inr (fun d t hd => by rw [h1 d t hd]; exact hs2 d t hd)
  · exact Or.inr (fun d t hd =>
      lt_of_le_of_lt (fscanf_u_length 0 _) (hs d t hd))

/-- The way to the digits of the max-colour field, in front of a digit. -/
theorem digits_before_digit (l : List Nat) :
    (∃ r, ∀ d t, isdigit d = true →
        (skipSign (skipSpace (ClearComment (l ++ d :: t)))).2 = r ++ d :: t) ∨
      (∀ d t, isdigit d = true →
        (skipSign (skipSpace (ClearComment (l ++ d :: t)))).2.length < (d :: t).length) := by
  rcases ClearComment_before_digit l with ⟨r1, h1⟩ | hs
  · obtain ⟨r2, h2⟩ := skipSpace_before_digit r1
    obtain ⟨b, r3, h3⟩ := skipSign_before_digit r2
    exact Or.inl ⟨r3, fun d t hd => by rw [h1 d t hd, h2 d t hd, h3 d t hd]⟩
  · exact Or.inr (fun d t hd =>
      lt_of_le_of_lt (le_trans (skipSign_length _) (skipSpace_length _)) (hs d t hd))

theorem digits_length (s : List Nat) :
    (skipSign (skipSpace (ClearComment s))).2.length ≤ s.length :=
  le_trans (skipSign_length _) (le_trans (skipSpace_length _) (ClearComment_length _))

theorem field_length (s : List Nat) : (fscanf_u 0 (ClearComment s)).2.length ≤ s.length :=
  le_trans (fscanf_u_length 0 _) (ClearComment_length _)

/-- The header scan up to the digits of the max-colour field: when it ends right
in front of a tail that starts with a digit, the signature, the width and the
height it has read do not depend on that tail, and it ends right in front of
any other tail that starts with a digit. -/
theorem header_before_max_color (pre : List Nat) (d1 : Nat) (t1 : List Nat)
    (hd1 : isdigit d1 = true) (hfield : maxColorDigits (pre ++ d1 :: t1) = d1 :: t1) :
    ∀ d t, isdigit d = true →
      signatureToken (pre ++ d :: t) = signatureToken (pre ++ d1 :: t1) ∧
      headerWidth (pre ++ d :: t) = headerWidth (pre ++ d1 :: t1) ∧
      headerHeigth (pre ++ d :: t) = headerHeigth (pre ++ d1 :: t1) ∧
      maxColorDigits (pre ++ d :: t) = d :: t := by
  have hlen := congrArg List.length hfield
  unfold maxColorDigits maxColorStream afterWidth at hlen hfield
  unfold signatureToken headerWidth headerHeigth maxColorDigits maxColorStream afterWidth
  rcases signature_before_digit pre with ⟨sig, r1, hA⟩ | hs
  · rcases field_before_digit r1 with ⟨w, r2, hB⟩ | hs
    · rcases field_before_digit r2 with ⟨h, r3, hC⟩ | hs
      · rcases digits_before_digit r3 with ⟨r4, hD⟩ | hs
        · rw [hA d1 t1 hd1] at hfield
          dsimp only at hfield
          rw [hB d1 t1 hd1] at hfield
          dsimp only at hfield
          rw [hC d1 t1 hd1] at hfield
          dsimp only at hfield
          rw [hD d1 t1 hd1] at hfield
          have hr4 : r4 = [] := by
            have := congrArg List.length hfield
            simp only [List.length_append] at this
            exact List.length_eq_zero.mp (by omega)
          subst hr4
          intro d t hd
          rw [hA d t hd, hA d1 t1 hd1]
          dsimp only
          rw [hB d t hd, hB d1 t1 hd1]
          dsimp only
          rw [hC d t hd, hC d1 t1 hd1]
          dsimp only
          rw [hD d t hd]
          exact ⟨rfl, rfl, rfl, rfl⟩
        · exfalso
          rw [hA d1 t1 hd1] at hlen
          dsimp only at hlen
          rw [hB d1 t1 hd1] at hlen
          dsimp only at hlen
          rw [hC d1 t1 hd1] at hlen
          dsimp only at hlen
          have := hs d1 t1 hd1
          omega
      · exfalso
        rw [hA d1 t1 hd1] at hlen
        dsimp only at hlen
        rw [hB d1 t1 hd1] at hlen
        dsimp only at hlen
        have h1 := hs d1 t1 hd1
        have h2 := digits_length (fscanf_u 0 (ClearComment (r2 ++ d1 :: t1))).2
        omega
    · exfalso
      rw [hA d1 t1 hd1] at hlen
      dsimp only at hlen
      have h1 := hs d1 t1 hd1
      have h2 := digits_length
        (fscanf_u 0 (ClearComment (fscanf_u 0 (ClearComment (r1 ++ d1 :: t1))).2)).2
      have h3 := field_length (fscanf_u 0 (ClearComment (r1 ++ d1 :: t1))).2
      omega
  · exfalso
    have h1 := hs d1 t1 hd1
    have h2 := digits_length
      (fscanf_u 0 (ClearComment (fscanf_u 0 (ClearComment
        (fgets 3 (ClearComment (pre ++ d1 :: t1))).2)).2)).2
    have h3 := field_length
      (fscanf_u 0 (ClearComment (fgets 3 (ClearComment (pre ++ d1 :: t1))).2)).2
    have h4 := field_length (fgets 3 (ClearComment (pre ++ d1 :: t1))).2
    omega

/-- The pixel data starts where the digits of the max-colour field end. -/
theorem pixelStream_of_digits (input m post : List Nat)
    (hfield : maxColorDigits input = m ++ post) (hm : ∀ c ∈ m, isdigit c = true)
    (hpost : ∀ c ∈ post.head?, isdigit c = false) : pixelStream input = post := by
  unfold pixelStream
  rw [fscanf_u_rest]
  unfold maxColorDigits at hfield
  rw [hfield, takeDigits_append m post hm hpost]

theorem writeRow_extends (pImage : PpmImage) (mode : PPM_MODE) (t : RgbColor → RgbColor)
    (y : Nat) : ∀ (n x : Nat) (out r : List Nat),
      writeRow pImage mode t y n x out = some r → ∃ body, r = out ++ body := by
  intro n
  induction n with
  | zero =>
    intro x out r h
    exact ⟨[], by simpa [writeRow] using h.symm⟩
  | succ n ih =>
    intro x out r h
    simp only [writeRow] at h
    cases hg : GetPixel x y pImage with
    | none => rw [hg] at h; exact absurd h (by simp)
    | some p =>
      rw [hg] at h
      obtain ⟨body, hb⟩ := ih (x + 1) _ r h
      exact ⟨emitPixel mode (t p) ++ body, by rw [hb, List.append_assoc]⟩

theorem writeRows_extends (pImage : PpmImage) (mode : PPM_MODE) (t : RgbColor → RgbColor) :
    ∀ (n y : Nat) (out r : List Nat),
      writeRows pImage mode t n y out = some r → ∃ body, r = out ++ body := by
  intro n
  induction n with
  | zero =>
    intro y out r h
    exact ⟨[], by simpa [writeRows] using h.symm⟩
  | succ n ih =>
    intro y out r h
    simp only [writeRows] at h
    cases hr : writeRow pImage mode t y pImage.Width 0 out with
    | none => rw [hr] at h; exact absurd h (by simp)
    | some out1 =>
      rw [hr] at h
      obtain ⟨b1, hb1⟩ := writeRow_extends pImage mode t y _ _ _ _ hr
      obtain ⟨b2, hb2⟩ := ih (y + 1) out1 r h
      exact ⟨b1 ++ b2, by rw [hb2, hb1, List.append_assoc]⟩

theorem WriteToPpm_content_header (fs : FileSystem) (name : List Nat) (pImage : PpmImage)
    (mode : PPM_MODE) (t : RgbColor → RgbColor) (out : List Nat) (hname : name ≠ [])
    (hopen : fs.writable name = true)
    (hout : (WriteToPpm fs (some name) (some pImage) mode (some t)).content name = some out) :
    ∃ body, out = layoutHeader mode pImage.Width pImage.Heigth ++ body := by
  cases hs : WriteStream pImage mode t with
  | none =>
    simp [WriteToPpm, hname, hopen, hs, WriteOutcome.content] at hout
  | some bytes =>
    rw [WriteToPpm_of_stream fs name pImage mode t bytes hname hopen hs] at hout
    simp only [WriteOutcome.content, FileSystem.store, if_true] at hout
    have hb : bytes = out := Option.some.inj hout
    rw [← hb, layoutHeader_eq_writeHeader]
    exact writeRows_extends pImage mode t _ _ _ _ hs

/-- C18: the max-colour field is ignored.  For every two inputs
`pre ++ m1 ++ post` and `pre ++ m2 ++ post` that differ only in the decimal
digits `m1`, `m2` of the max-colour field (in the first input the decoder finds
`m1` where it converts the digits of that field, after the white space and the
optional sign it skips), `LoadImage` ends in the same way, with the same image
(width, height, mode and pixels) when it returns one: the value of the field is
neither checked nor used.  And whatever image, mode and transform `WriteToPpm`
is called with, the file it has written when it returns starts with the header
`"<SIG>\n<width> <height>\n255\n"`: the max-colour field written is always
255; for an image whose buffer holds its `Width * Heigth ≤ 2 ^ 32` pixels the
call does return, and the file is that header followed by the pixels. -/
theorem LoadImage_max_color_ignored (fs : FileSystem) (heap : Nat → RgbColor)
    (name1 name2 pre m1 m2 post : List Nat) (hname1 : name1 ≠ []) (hname2 : name2 ≠ [])
    (hfile1 : fs.content name1 = some (pre ++ m1 ++ post))
    (hfile2 : fs.content name2 = some (pre ++ m2 ++ post))
    (hm1 : m1 ≠ [] ∧ ∀ c ∈ m1, isdigit c = true) (hm2 : m2 ≠ [] ∧ ∀ c ∈ m2, isdigit c = true)
    (hpost : ∀ c ∈ post.head?, isdigit c = false)
    (hfield : maxColorDigits (pre ++ m1 ++ post) = m1 ++ post) :
    LoadImage fs heap (some name1) = LoadImage fs heap (some name2) ∧
      (∀ (dst : List Nat) (pImage : PpmImage) (mode : PPM_MODE) (t : RgbColor → RgbColor),
        dst ≠ [] → fs.writable dst = true →
        (∀ out, (WriteToPpm fs (some dst) (some pImage) mode (some t)).content dst = some out →
          ∃ body, out = layoutHeader mode pImage.Width pImage.Heigth ++ body) ∧
        (pImage.Pixels.length = pImage.Width * pImage.Heigth →
          pImage.Width * pImage.Heigth ≤ 2 ^ 32 →
          (WriteToPpm fs (some dst) (some pImage) mode (some t)).content dst =
            some (layoutHeader mode pImage.Width pImage.Heigth ++
              layoutPixels mode (pImage.Pixels.map t)))) := by
  constructor
  · obtain ⟨d1, ds1, rfl⟩ := List.exists_cons_of_ne_nil hm1.1
    obtain ⟨d2, ds2, rfl⟩ := List.exists_cons_of_ne_nil hm2.1
    have hd1 : isdigit d1 = true := hm1.2 d1 (by simp)
    have hd2 : isdigit d2 = true := hm2.2 d2 (by simp)
    have e1 : pre ++ d1 :: ds1 ++ post = pre ++ d1 :: (ds1 ++ post) := by simp
    have e2 : pre ++ d2 :: ds2 ++ post = pre ++ d2 :: (ds2 ++ post) := by simp
    rw [e1] at hfile1 hfield
    rw [e2] at hfile2
    rw [List.cons_append] at hfield
    obtain ⟨hs, hw, hh, hf2⟩ := header_before_max_color pre d1 (ds1 ++ post) hd1 hfield
      d2 (ds2 ++ post) hd2
    have hp1 : pixelStream (pre ++ d1 :: (ds1 ++ post)) = post :=
      pixelStream_of_digits _ (d1 :: ds1) post (by rw [hfield, List.cons_append]) hm1.2 hpost
    have hp2 : pixelStream (pre ++ d2 :: (ds2 ++ post)) = post :=
      pixelStream_of_digits _ (d2 :: ds2) post (by rw [hf2, List.cons_append]) hm2.2 hpost
    rw [LoadImage_of_file fs heap name1 _ hname1 hfile1,
      LoadImage_of_file fs heap name2 _ hname2 hfile2,
      LoadStream_fields heap (pre ++ d1 :: (ds1 ++ post)),
      LoadStream_fields heap (pre ++ d2 :: (ds2 ++ post)), hp1, hp2, hs, hw, hh]
  · intro dst pImage mode t hdst hopen
    constructor
    · intro out hout
      exact WriteToPpm_content_header fs dst pImage mode t out hdst hopen hout
    · intro hlen hsize
      rw [WriteToPpm_of_stream fs dst pImage mode t _ hdst hopen
        (WriteStream_reference pImage mode t hlen hsize)]
      simp [WriteOutcome.content, FileSystem.store, referenceLayout]

theorem LoadImage_max_color_ignored_witness :
    LoadImage ((FileSystem.single [97] (ascii "P6\n1 1 255\n" ++ [1, 2, 3])).store [98]
          (ascii "P6\n1 1 7\n" ++ [1, 2, 3])) (fun _ => ⟨0, 0, 0⟩) (some [97]) =
        LoadImage ((FileSystem.single [97] (ascii "P6\n1 1 255\n" ++ [1, 2, 3])).store [98]
          (ascii "P6\n1 1 7\n" ++ [1, 2, 3])) (fun _ => ⟨0, 0, 0⟩) (some [98]) ∧
      (∀ (dst : List Nat) (pImage : PpmImage) (mode : PPM_MODE) (t : RgbColor → RgbColor),
        dst ≠ [] →
        ((FileSystem.single [97] (ascii "P6\n1 1 255\n" ++ [1, 2, 3])).store [98]
          (ascii "P6\n1 1 7\n" ++ [1, 2, 3])).writable dst = true →
        (∀ out,
          (WriteToPpm ((FileSystem.single [97] (ascii "P6\n1 1 255\n" ++ [1, 2, 3])).store [98]
            (ascii "P6\n1 1 7\n" ++ [1, 2, 3])) (some dst) (some pImage) mode
            (some t)).content dst = some out →
          ∃ body, out = layoutHeader mode pImage.Width pImage.Heigth ++ body) ∧
        (pImage.Pixels.length = pImage.Width * pImage.Heigth →
          pImage.Width * pImage.Heigth ≤ 2 ^ 32 →
          (WriteToPpm ((FileSystem.single [97] (ascii "P6\n1 1 255\n" ++ [1, 2, 3])).store [98]
            (ascii "P6\n1 1 7\n" ++ [1, 2, 3])) (some dst) (some pImage) mode
            (some t)).content dst =
            some (layoutHeader mode pImage.Width pImage.Heigth ++
              layoutPixels mode (pImage.Pixels.map t)))) :=
  LoadImage_max_color_ignored
    ((FileSystem.single [97] (ascii "P6\n1 1 255\n" ++ [1, 2, 3])).store [98]
      (ascii "P6\n1 1 7\n" ++ [1, 2, 3]))
    (fun _ => ⟨0, 0, 0⟩) [97] [98] (ascii "P6\n1 1 ") (ascii "255") (ascii "7")
    (10 :: [1, 2, 3])
    (by decide) (by decide) (by decide) (by decide) (by decide) (by decide) (by decide)
    (by decide)

/-! ## Under-read pixels -/

theorem scanTrace_length (n : Nat) (t : TripleScan) : (scanTrace n t).length = n := by
  induction n generalizing t with
  | zero => rfl
  | succ n ih => simp [scanTrace, ih]

theorem scanTrace_add (a b : Nat) (t : TripleScan) :
    scanTrace (a + b) t = scanTrace a t ++ scanTrace b (nextScan^[a] t) := by
  induction a generalizing t with
  | zero => simp [scanTrace]
  | succ a ih =>
    rw [Nat.succ_add, scanTrace, scanTrace, ih (nextScan t), Function.iterate_succ_apply,
      List.cons_append]

/-- A row of the ASCII loop, on any stream: each cell of the row receives the
colour read for it when the read was complete and keeps its content otherwise. -/
theorem scanRow_trace (w y : Nat) :
    ∀ (n x : Nat) (t : TripleScan) (pre old post : List RgbColor)
      (stray : List (Nat × RgbColor)),
      old.length = n → pre.length = y * w + x → (pre ++ old ++ post).length < 2 ^ 64 →
      scanRow w y n x ⟨t.rest, pre ++ old ++ post, t.r, t.g, t.b, stray⟩ =
        ⟨(nextScan^[n] t).rest,
          pre ++ List.zipWith mergeCell (scanTrace n t) old ++ post,
          (nextScan^[n] t).r, (nextScan^[n] t).g, (nextScan^[n] t).b, stray⟩ := by
  intro n
  induction n with
  | zero =>
    intro x t pre old post stray hold _ _
    have h2 : old = [] := List.length_eq_zero.mp hold
    subst h2
    rfl
  | succ n ih =>
    intro x t pre old post stray hold hpre hlen
    obtain ⟨o, old, rfl⟩ := List.exists_cons_of_length_eq_add_one hold
    have hidx : (y * w + x) % 2 ^ 64 = pre.length := by
      rw [← hpre]
      apply Nat.mod_eq_of_lt
      simp only [List.length_append, List.length_cons] at hlen
      omega
    have hlt : pre.length < (pre ++ o :: old ++ post).length := by
      simp only [List.length_append, List.length_cons]; omega
    have hset : ∀ c : RgbColor, (pre ++ o :: old ++ post).set pre.length c =
        (pre ++ [c]) ++ old ++ post := by
      intro c; simp [List.set_append]
    have hrec := ih (x + 1) (nextScan t) (pre ++ [mergeCell (nextScan t) o]) old post stray
      (by simpa using hold)
      (by simp only [List.length_append, List.length_singleton]; omega)
      (by simp only [List.length_append, List.length_cons, List.length_singleton,
            List.length_nil] at hlen ⊢; omega)
    have hstep : scanPixel w y x ⟨t.rest, pre ++ o :: old ++ post, t.r, t.g, t.b, stray⟩ =
        ⟨(nextScan t).rest, (pre ++ [mergeCell (nextScan t) o]) ++ old ++ post,
          (nextScan t).r, (nextScan t).g, (nextScan t).b, stray⟩ := by
      unfold scanPixel
      dsimp only
      rw [hidx]
      by_cases hc : (fscanf_hhu3 t.r t.g t.b t.rest).count = 3
      · have hm : mergeCell (nextScan t) o =
            ⟨(nextScan t).r, (nextScan t).g, (nextScan t).b⟩ := by
          simp [mergeCell, nextScan, hc]
        rw [if_pos hc, if_pos hlt, hset, hm]
        rfl
      · have hm : mergeCell (nextScan t) o = o := by
          simp [mergeCell, nextScan, hc]
        rw [if_neg hc, hm]
        simp [nextScan]
    rw [scanRow, hstep, hrec, Function.iterate_succ_apply]
    simp [scanTrace]

/-- The ASCII loop, on any stream: the cells are visited in order, one read per cell. -/
theorem scanRows_trace (w : Nat) :
    ∀ (n y : Nat) (t : TripleScan) (pre old post : List RgbColor)
      (stray : List (Nat × RgbColor)),
      old.length = n * w → pre.length = y * w → (pre ++ old ++ post).length < 2 ^ 64 →
      scanRows w n y ⟨t.rest, pre ++ old ++ post, t.r, t.g, t.b, stray⟩ =
        ⟨(nextScan^[n * w] t).rest,
          pre ++ List.zipWith mergeCell (scanTrace (n * w) t) old ++ post,
          (nextScan^[n * w] t).r, (nextScan^[n * w] t).g, (nextScan^[n * w] t).b, stray⟩ := by
  intro n
  induction n with
  | zero =>
    intro y t pre old post stray hold _ _
    have h2 : old = [] := List.length_eq_zero.mp (by simpa using hold)
    subst h2
    simp [scanRows, scanTrace]
  | succ n ih =>
    intro y t pre old post stray hold hpre hlen
    have hl : old.length = w + n * w := by rw [hold, Nat.succ_mul]; omega
    obtain ⟨old1, old2, rfl, ho1, ho2⟩ : ∃ l1 l2, old = l1 ++ l2 ∧ l1.length = w ∧
        l2.length = n * w :=
      ⟨old.take w, old.drop w, (List.take_append_drop w old).symm,
        by rw [List.length_take, hl]; omega, by rw [List.length_drop, hl]; omega⟩
    have hrow := scanRow_trace w y w 0 t pre old1 (old2 ++ post) stray ho1 (by omega)
      (by simpa [List.append_assoc] using hlen)
    have hrec := ih (y + 1) (nextScan^[w] t)
      (pre ++ List.zipWith mergeCell (scanTrace w t) old1) old2 post stray ho2
      (by rw [List.length_append, List.length_zipWith, scanTrace_length, ho1, hpre,
            Nat.min_self, Nat.succ_mul])
      (by
        simp only [List.length_append, List.length_zipWith, scanTrace_length] at hlen ⊢
        omega)
    have hadd : (n + 1) * w = w + n * w := by rw [Nat.succ_mul]; omega
    have hzip : List.zipWith mergeCell (scanTrace (w + n * w) t) (old1 ++ old2) =
        List.zipWith mergeCell (scanTrace w t) old1 ++
          List.zipWith mergeCell (scanTrace (n * w) (nextScan^[w] t)) old2 := by
      rw [scanTrace_add, List.zipWith_append _ _ _ _ _ (by rw [scanTrace_length, ho1])]
    have hiter : nextScan^[w + n * w] t = nextScan^[n * w] (nextScan^[w] t) := by
      rw [Nat.add_comm, Function.iterate_add_apply]
    simp only [List.append_assoc] at hrow hrec ⊢
    rw [scanRows, hrow, hrec, hadd, hzip, hiter]
    simp only [List.append_assoc]

theorem scanRows_trace_all (w h : Nat) (s : List Nat) (old : List RgbColor)
    (hold : old.length = w * h) (hlen : w * h < 2 ^ 32) :
    ∃ st, scanRows w h 0 ⟨s, old, 0, 0, 0, []⟩ = st ∧ st.stray = [] ∧
      st.ColorBuffer = List.zipWith mergeCell (scanTrace (w * h) ⟨0, 0, 0, 0, s⟩) old := by
  have hrows := scanRows_trace w h 0 ⟨0, 0, 0, 0, s⟩ [] old [] []
    (by rw [hold, Nat.mul_comm]) (by simp)
    (by
      simp only [List.nil_append, List.append_nil, hold]
      exact lt_trans hlen (by decide))
  simp only [List.nil_append, List.append_nil] at hrows
  exact ⟨_, hrows, rfl, by rw [Nat.mul_comm h w]⟩

/-- The ASCII branch on any stream, while the 32-bit product of the dimensions
does not wrap: an image is returned, and its buffer is the initial content
merged with the successive reads. -/
theorem LoadStream_ascii_trace (heap : Nat → RgbColor) (input : List Nat)
    (hsig : (signatureToken input).getD 1 0 = 51)
    (hsize : headerWidth input * headerHeigth input < 2 ^ 32) :
    (LoadStream heap input).result =
      LoadResult.image ⟨headerWidth input, headerHeigth input,
        List.zipWith mergeCell
          (scanTrace (headerWidth input * headerHeigth input) ⟨0, 0, 0, 0, pixelStream input⟩)
          ((List.range (headerWidth input * headerHeigth input)).map heap),
        PPM_MODE_P3⟩ := by
  rw [LoadStream_fields, if_pos hsig, Nat.mod_eq_of_lt hsize]
  generalize headerWidth input = w at hsize ⊢
  generalize headerHeigth input = h at hsize ⊢
  generalize pixelStream input = s
  obtain ⟨st, hst, hstray, hbuf⟩ := scanRows_trace_all w h s ((List.range (w * h)).map heap)
    (by simp) hsize
  rw [hst]
  dsimp only
  rw [asciiResult, if_pos hstray, hbuf]

/-- C17 at a failing input.  The P3 input `"P3\n65536 65536\n255\n1 2 3\n"`
holds one complete triple and then ends, so the read for the pixel `(0, 0)` is
complete and every later read is short.  The decoder requests a pixel buffer of
0 bytes, because the 32-bit product of the dimensions is zero, and returns the
image record; the colour `(1, 2, 3)` of the complete triple is not in a cell of
the image, whose buffer has no cell: it was stored at index 0, outside the
buffer. -/
theorem LoadImage_truncated_ascii_size_wraps :
    (scanTrace 2 ⟨0, 0, 0, 0, pixelStream (ascii "P3\n65536 65536\n255\n1 2 3\n")⟩).map
        TripleScan.count = [3, 0] ∧
    LoadImage (FileSystem.single [97] (ascii "P3\n65536 65536\n255\n1 2 3\n"))
        (fun _ => ⟨0, 0, 0⟩) (some [97]) =
      ⟨LoadResult.overflow ⟨65536, 65536, [], PPM_MODE_P3⟩ [(0, ⟨1, 2, 3⟩)],
        [Alloc.imageRecord, Alloc.pixelBuffer 0]⟩ := by
  refine ⟨by decide, ?_⟩
  have hin : ascii "P3\n65536 65536\n255\n1 2 3\n" =
      layoutHeader PPM_MODE_P3 65536 65536 ++ ascii "1 2 3\n" := by decide
  have hz : 65536 * 65536 % 2 ^ 32 = 0 := by decide
  have hfirst : scanPixel 65536 0 0 ⟨ascii "1 2 3\n", [], 0, 0, 0, []⟩ =
      ⟨[], [], 1, 2, 3, [(0, ⟨1, 2, 3⟩)]⟩ := by decide
  rw [LoadImage_of_file _ _ [97] _ (by decide) (FileSystem.single_content _ _), hin,
    LoadStream_ascii _ 65536 65536 _ (by decide) (by decide), hz,
    scanRows_space 65536 65536 10 _ _ 0 0 0 [] (by decide) (by decide) (by decide)]
  have hbuf : (List.range 0).map (fun _ : Nat => (⟨0, 0, 0⟩ : RgbColor)) = [] := rfl
  rw [hbuf, scanRows_first_only 65536 65536 _ (by decide) (by decide) (by rw [hfirst]),
    hfirst]
  rfl

/-- The ASCII decoder on any pixel data, for sizes whose 32-bit product does not
wrap: for every P3 input whose header gives `Width * Heigth < 2 ^ 32` and every
initial content `heap` of the pixel buffer, `LoadImage` returns an image of
`Width * Heigth` cells; the cell `i` keeps its prior content `heap i` when the
read for it assigned fewer than three values, and holds the three values read
when the read was complete. -/
theorem LoadImage_ascii_under_read (fs : FileSystem) (heap : Nat → RgbColor)
    (name input : List Nat) (hname : name ≠ []) (hfile : fs.content name = some input)
    (hsig : (signatureToken input).getD 1 0 = 51)
    (hsize : headerWidth input * headerHeigth input < 2 ^ 32) :
    ∃ pixels,
      (LoadImage fs heap (some name)).result =
        LoadResult.image ⟨headerWidth input, headerHeigth input, pixels, PPM_MODE_P3⟩ ∧
      pixels.length = headerWidth input * headerHeigth input ∧
      ∀ i t,
        (scanTrace (headerWidth input * headerHeigth input)
          ⟨0, 0, 0, 0, pixelStream input⟩).get? i = some t →
        (t.count ≠ 3 → pixels.get? i = some (heap i)) ∧
        (t.count = 3 → pixels.get? i = some ⟨t.r, t.g, t.b⟩) := by
  refine ⟨List.zipWith mergeCell
      (scanTrace (headerWidth input * headerHeigth input) ⟨0, 0, 0, 0, pixelStream input⟩)
      ((List.range (headerWidth input * headerHeigth input)).map heap), ?_, ?_, ?_⟩
  · rw [LoadImage_of_file fs heap name input hname hfile]
    exact LoadStream_ascii_trace heap input hsig hsize
  · rw [List.length_zipWith, scanTrace_length, List.length_map, List.length_range,
      Nat.min_self]
  · intro i t ht
    generalize headerWidth input * headerHeigth input = N at ht ⊢
    generalize pixelStream input = s at ht ⊢
    rw [List.get?_eq_getElem?] at ht
    have hi : i < N := by
      have := (List.getElem?_eq_some_iff.mp ht).1
      rwa [scanTrace_length] at this
    have hheap : ((List.range N).map heap)[i]? = some (heap i) := by
      rw [List.getElem?_map, List.getElem?_range hi]; rfl
    have hcell : (List.zipWith mergeCell (scanTrace N ⟨0, 0, 0, 0, s⟩)
        ((List.range N).map heap))[i]? = some (mergeCell t (heap i)) := by
      rw [List.getElem?_zipWith, ht, hheap]
    rw [List.get?_eq_getElem?, hcell]
    constructor
    · intro hc; simp [mergeCell, hc]
    · intro hc; simp [mergeCell, hc]

theorem LoadImage_ascii_under_read_example :
    ∃ pixels,
      (LoadImage (FileSystem.single [97] (ascii "P3\n2 1\n255\n1 2 3\n4 5\n"))
          (fun _ => ⟨9, 9, 9⟩) (some [97])).result =
        LoadResult.image ⟨headerWidth (ascii "P3\n2 1\n255\n1 2 3\n4 5\n"),
          headerHeigth (ascii "P3\n2 1\n255\n1 2 3\n4 5\n"), pixels, PPM_MODE_P3⟩ ∧
      pixels.length = headerWidth (ascii "P3\n2 1\n255\n1 2 3\n4 5\n") *
        headerHeigth (ascii "P3\n2 1\n255\n1 2 3\n4 5\n") ∧
      ∀ i t,
        (scanTrace (headerWidth (ascii "P3\n2 1\n255\n1 2 3\n4 5\n") *
            headerHeigth (ascii "P3\n2 1\n255\n1 2 3\n4 5\n"))
          ⟨0, 0, 0, 0, pixelStream (ascii "P3\n2 1\n255\n1 2 3\n4 5\n")⟩).get? i = some t →
        (t.count ≠ 3 → pixels.get? i = some ((fun _ => (⟨9, 9, 9⟩ : RgbColor)) i)) ∧
        (t.count = 3 → pixels.get? i = some ⟨t.r, t.g, t.b⟩) :=
  LoadImage_ascii_under_read (FileSystem.single [97] (ascii "P3\n2 1\n255\n1 2 3\n4 5\n"))
    (fun _ => ⟨9, 9, 9⟩) [97] (ascii "P3\n2 1\n255\n1 2 3\n4 5\n") (by decide) (by decide)
    (by decide) (by decide)

/-! ## Encoding in ASCII and decoding again -/

/-- The decoder on the layout of an ASCII image. -/
theorem LoadStream_ascii_decode (heap : Nat → RgbColor) (w h : Nat) (cs : List RgbColor)
    (hw : 1 ≤ w) (hh : 1 ≤ h) (hsize : w * h < 2 ^ 32) (hlen : cs.length = w * h)
    (hvalid : ∀ c ∈ cs, c.valid) :
    (LoadStream heap (layoutHeader PPM_MODE_P3 w h ++ layoutPixels PPM_MODE_P3 cs)).result =
      LoadResult.image ⟨w, h, cs, PPM_MODE_P3⟩ := by
  have hwlt : w < 2 ^ 32 := lt_of_le_of_lt (Nat.le_mul_of_pos_right w hh) hsize
  have hhlt : h < 2 ^ 32 := lt_of_le_of_lt (Nat.le_mul_of_pos_left h hw) hsize
  rw [LoadStream_ascii heap w h _ hwlt hhlt,
    Nat.mod_eq_of_lt hsize, scanRows_space w h 10 _ _ 0 0 0 [] (by decide) hw hh]
  obtain ⟨r1, g1, b1, hrows⟩ := scanRows_lines w h 0 cs [] []
    ((List.range (w * h)).map heap) [] 0 0 0 [] (by rw [hlen, Nat.mul_comm])
    (by simp [Nat.mul_comm]) (by simp) hvalid
    (by
      simp only [List.nil_append, List.append_nil, List.length_map, List.length_range]
      exact lt_trans hsize (by decide))
  simp only [List.nil_append, List.append_nil] at hrows
  rw [hrows]
  rfl

theorem FileSystem.store_content (fs : FileSystem) (name bytes : List Nat) :
    (fs.store name bytes).content name = some bytes := by
  simp [FileSystem.store]

theorem map_DefaultAct (l : List RgbColor) : l.map DefaultAct = l := by
  induction l with
  | nil => rfl
  | cons c l ih => simp [DefaultAct, ih]

/-- What `WriteToPpm` leaves in the file in P3 mode with `DefaultAct`, and what
`LoadImage` then finds there. -/
theorem reencoded_ascii_file (fs : FileSystem) (heap : Nat → RgbColor) (name : List Nat)
    (pImage : PpmImage) (hname : name ≠ []) (hopen : fs.writable name = true)
    (hlen : pImage.Pixels.length = pImage.Width * pImage.Heigth)
    (hsize : pImage.Width * pImage.Heigth ≤ 2 ^ 32) :
    ∃ fs1, WriteToPpm fs (some name) (some pImage) PPM_MODE_P3 (some DefaultAct) =
        WriteOutcome.returned fs1 ∧
      LoadImage fs1 heap (some name) =
        LoadStream heap (layoutHeader PPM_MODE_P3 pImage.Width pImage.Heigth ++
          layoutPixels PPM_MODE_P3 pImage.Pixels) := by
  refine ⟨fs.store name (referenceLayout pImage PPM_MODE_P3 DefaultAct),
    WriteToPpm_of_stream fs name pImage _ _ _ hname hopen
      (WriteStream_reference pImage _ _ hlen hsize), ?_⟩
  rw [LoadImage_of_file _ heap name _ hname (FileSystem.store_content _ _ _), referenceLayout,
    map_DefaultAct]

/-- C19 at a failing input: the image of width 65536 and height 65536 whose
`65536 * 65536` pixels are `(0, 0, 0)` is written by `WriteToPpm` in P3 mode
with `DefaultAct`; on the file written, `LoadImage` requests a pixel buffer of
0 bytes, because the 32-bit product of the dimensions read back is zero, and
stores the colours outside it, from the first one (index 0) on: the image
record has a pixel buffer without any cell, not the pixel sequence of the
image that was written. -/
theorem reencode_ascii_size_wraps :
    ∃ fs1,
      WriteToPpm (FileSystem.single [105] []) (some [111])
          (some ⟨65536, 65536, List.replicate (65536 * 65536) (RgbColor.mk 0 0 0),
            PPM_MODE_P3⟩) PPM_MODE_P3 (some DefaultAct) = WriteOutcome.returned fs1 ∧
      LoadImage fs1 (fun _ => ⟨0, 0, 0⟩) (some [111]) =
        ⟨LoadResult.overflow ⟨65536, 65536, [], PPM_MODE_P3⟩
            ((List.replicate (65536 * 65536) (RgbColor.mk 0 0 0)).enumFrom 0),
          [Alloc.imageRecord, Alloc.pixelBuffer 0]⟩ := by
  obtain ⟨fs1, hwrite, hload⟩ := reencoded_ascii_file (FileSystem.single [105] [])
    (fun _ => ⟨0, 0, 0⟩) [111]
    ⟨65536, 65536, List.replicate (65536 * 65536) (RgbColor.mk 0 0 0), PPM_MODE_P3⟩
    (by decide) rfl (List.length_replicate _ _) (by decide)
  refine ⟨fs1, hwrite, ?_⟩
  rw [hload]
  dsimp only
  exact LoadStream_ascii_no_cell _ 65536 65536 _ (by decide) (by decide) (by decide)
    (by decide) (by decide) (List.length_replicate _ _)
    (fun c hc => by rw [List.eq_of_mem_replicate hc]; decide)

/-- Encoding in ASCII and decoding again, for sizes whose 32-bit product does
not wrap: for every image with 8-bit channels, `Width, Heigth ≥ 1`, a buffer of
`Width * Heigth` pixels and `Width * Heigth < 2 ^ 32`, `WriteToPpm` in P3 mode
with `DefaultAct` returns, and `LoadImage` on the file it wrote returns an image
with the same `Width`, `Heigth` and pixel sequence, and mode P3. -/
theorem reencode_ascii_round_trip (fs : FileSystem) (heap : Nat → RgbColor) (name : List Nat)
    (pImage : PpmImage) (hname : name ≠ []) (hopen : fs.writable name = true)
    (hw : 1 ≤ pImage.Width) (hh : 1 ≤ pImage.Heigth)
    (hlen : pImage.Pixels.length = pImage.Width * pImage.Heigth)
    (hsize : pImage.Width * pImage.Heigth < 2 ^ 32)
    (hvalid : ∀ c ∈ pImage.Pixels, c.valid) :
    ∃ fs1, WriteToPpm fs (some name) (some pImage) PPM_MODE_P3 (some DefaultAct) =
        WriteOutcome.returned fs1 ∧
      (LoadImage fs1 heap (some name)).result =
        LoadResult.image ⟨pImage.Width, pImage.Heigth, pImage.Pixels, PPM_MODE_P3⟩ := by
  obtain ⟨fs1, hwrite, hload⟩ := reencoded_ascii_file fs heap name pImage hname hopen hlen
    (Nat.le_of_lt hsize)
  exact ⟨fs1, hwrite, by
    rw [hload]
    exact LoadStream_ascii_decode heap _ _ _ hw hh hsize hlen hvalid⟩

theorem reencode_ascii_round_trip_example :
    ∃ fs1, WriteToPpm (FileSystem.single [105] []) (some [111])
          (some ⟨2, 1, [⟨255, 0, 0⟩, ⟨0, 255, 0⟩], PPM_MODE_P6⟩) PPM_MODE_P3
          (some DefaultAct) = WriteOutcome.returned fs1 ∧
      (LoadImage fs1 (fun _ => ⟨7, 7, 7⟩) (some [111])).result =
        LoadResult.image ⟨2, 1, [⟨255, 0, 0⟩, ⟨0, 255, 0⟩], PPM_MODE_P3⟩ :=
  reencode_ascii_round_trip (FileSystem.single [105] []) (fun _ => ⟨7, 7, 7⟩) [111]
    ⟨2, 1, [⟨255, 0, 0⟩, ⟨0, 255, 0⟩], PPM_MODE_P6⟩ (by decide) (by decide) (by decide)
    (by decide) (by decide) (by decide) (by decide)


end PpmManip
